import Mathlib

/-! # haven: template helper functions (functions.go)

A shallow embedding of the slice and integer helpers of `functions.go`.

* Go `int` is modelled as an `Int` kept inside the 64-bit two's-complement
  range; every arithmetic result is passed through `wrapInt`.
* Go `[]string` is modelled as `List String` (a nil slice and an empty slice
  are both `[]`); an indexed read or write outside the slice is a run-time
  panic and is modelled by `none`.  Only `Slice` can reach beyond the length
  of its operand, so its operand is a `StrSlice`, a list with its spare capacity.
* The packages `regexp` and `math/rand` are parameters of `Grep` and `Shuffle`;
  `sort.Strings`, `base64.StdEncoding`, `strings.Split`, `strings.Join`,
  `strings.Repeat` and the line scanner of `bufio` are modelled by executable
  definitions.
* Where the bytes of a string matter (`Base64Encode`, `Split`, `Join`, `Lines`,
  `Repeat`) a Go string is the list of its bytes.
* Loops that Go does not bound syntactically (`for cond { ... }`) carry a fuel
  argument; running out of fuel is reported separately from a returned value.
-/

namespace Haven

/-! ## Machine integers -/

/-- Smallest value of a Go `int` on a 64-bit target. -/
def minInt : Int := -9223372036854775808

/-- Largest value of a Go `int` on a 64-bit target. -/
def maxInt : Int := 9223372036854775807

/-- Two's-complement wrap-around of an exact integer result into the range of `int`. -/
def wrapInt (x : Int) : Int :=
  (x + 9223372036854775808) % 18446744073709551616 - 9223372036854775808

/-- The value is representable as a Go `int`. -/
def IsInt (x : Int) : Prop := minInt ≤ x ∧ x ≤ maxInt

instance (x : Int) : Decidable (IsInt x) := by
  unfold IsInt; exact inferInstance

/-! ## Outcomes of a call -/

/-- Outcome of running a Go function: a returned value, a run-time panic with its
message, or the fuel of the model running out before the function returned. -/
inductive Run (α : Type) where
  | done : α → Run α
  | panicked : String → Run α
  | outOfFuel : Run α
  deriving DecidableEq, Repr

/-! ## Math (functions.go, "Math") -/

/-- Go: `func Max(a, operand int) int { if a > operand { return a }; return operand }`. -/
def Max (a operand : Int) : Int :=
  if a > operand then a else operand

/-- Go: `func Min(a, operand int) int { if a < operand { return a }; return operand }`. -/
def Min (a operand : Int) : Int :=
  if a < operand then a else operand

/-! ## Seq -/

/-- The ascending loop of `Seq`:
`for current <= last { values = append(values, current); current += j }`. -/
def seqUp : Nat → Int → Int → Int → List Int → Option (List Int)
  | 0, _, _, _, _ => none
  | fuel + 1, j, last, current, values =>
    if current ≤ last then
      seqUp fuel j last (wrapInt (current + j)) (values ++ [current])
    else some values

/-- The descending loop of `Seq`:
`for current >= last { values = append(values, current); current += j }`. -/
def seqDown : Nat → Int → Int → Int → List Int → Option (List Int)
  | 0, _, _, _, _ => none
  | fuel + 1, j, last, current, values =>
    if current ≥ last then
      seqDown fuel j last (wrapInt (current + j)) (values ++ [current])
    else some values

/-- The body of `Seq` after the increment `j` has been fixed: `values` starts as the nil
slice, `current` as `first`, and the loop is chosen by the sign of `j`. -/
def seqBody (fuel : Nat) (first last j : Int) : Run (List Int) :=
  match (if j > 0 then seqUp fuel j last first [] else seqDown fuel j last first []) with
  | some values => Run.done values
  | none => Run.outOfFuel

/-- Go: `func Seq(first, last int, incr ...int) []int`.  The variadic `incr` is the list of
the extra arguments. -/
def Seq (fuel : Nat) (first last : Int) (incr : List Int) : Run (List Int) :=
  match incr with
  | [] => seqBody fuel first last 1
  | [j] =>
    if j = 0 then Run.panicked "Seq incr value cannot be zero"
    else seqBody fuel first last j
  | _ :: _ :: _ => Run.panicked "Seq incr cannot be more than one value in length"

/-! ## Strings

A Go string is a sequence of bytes; a `String` stands for its UTF-8 encoding (byte
sequences that are not valid UTF-8 are outside the model).  The slice helpers use strings
only through equality and, in `Sort`, through the byte-wise order `<`. -/

/-- The UTF-8 bytes of one code point. -/
def utf8Char (c : Char) : List Nat :=
  let n := c.toNat
  if n < 128 then [n]
  else if n < 2048 then [192 + n / 64, 128 + n % 64]
  else if n < 65536 then [224 + n / 4096, 128 + n / 64 % 64, 128 + n % 64]
  else [240 + n / 262144, 128 + n / 4096 % 64, 128 + n / 64 % 64, 128 + n % 64]

/-- The bytes of a Go string. -/
def goBytes (s : String) : List Nat := s.toList.flatMap utf8Char

/-- Lexical byte-wise comparison, the `<` of Go on the bytes of two strings. -/
def bytesLess : List Nat → List Nat → Bool
  | _, [] => false
  | [], _ :: _ => true
  | x :: xs, y :: ys => if x < y then true else if y < x then false else bytesLess xs ys

/-- Go: `a < b` on strings. -/
def strLess (a b : String) : Bool := bytesLess (goBytes a) (goBytes b)

/-- Non-strict order induced by Go's `<` on strings: `b` is not less than `a`. -/
def strLe (a b : String) : Prop := strLess b a = false

instance : DecidableRel strLe := fun a b => by
  unfold strLe; exact inferInstance

/-! ## Slices of strings

Lengths and the loop counters that run over `0 .. len-1` are naturals (a slice has fewer
than `2^63` elements, so their arithmetic never wraps); an index that the source computes
by subtraction is an `Int`, so that a negative index is seen by the bounds check. -/

/-- Go: `make([]string, n)`; panics for a negative length. -/
def makeSlice (n : Int) : Option (List String) :=
  if 0 ≤ n then some (List.replicate n.toNat "") else none

/-- Go: the read `s[i]`; `none` is the index-out-of-range panic. -/
def getAt (s : List String) (i : Int) : Option String :=
  if 0 ≤ i ∧ i < s.length then s[i.toNat]? else none

/-- Go: the assignment `s[i] = x`; `none` is the index-out-of-range panic. -/
def setAt (s : List String) (i : Int) (x : String) : Option (List String) :=
  if 0 ≤ i ∧ i < s.length then some (s.set i.toNat x) else none

/-- Go: the slice expression `s[:i]` on a slice whose capacity is its length. -/
def sliceTo (s : List String) (i : Int) : Option (List String) :=
  if 0 ≤ i ∧ i ≤ s.length then some (s.take i.toNat) else none

/-! ## Maps

A Go `map[string]bool` is the list of its entries, keys pairwise distinct. -/

/-- Go: `m[k]` on a `map[string]bool`; a missing key reads as `false`. -/
def mapGet : List (String × Bool) → String → Bool
  | [], _ => false
  | (k, v) :: rest, x => if x = k then v else mapGet rest x

/-- Go: `m[k] = v`; an existing key keeps its place, a new key is added. -/
def mapSet : List (String × Bool) → String → Bool → List (String × Bool)
  | [], k, v => [(k, v)]
  | (k', v') :: rest, k, v =>
    if k = k' then (k', v) :: rest else (k', v') :: mapSet rest k v

/-- The keys held by a map. -/
def mapKeys (m : List (String × Bool)) : List String := m.map Prod.fst

/-- Go: `len(m)` on a map. -/
def mapLen (m : List (String × Bool)) : Nat := m.length

/-- Go: `for _, elem := range l { uniq[elem] = true }` starting from the map `m`. -/
def markAll (m : List (String × Bool)) (l : List String) : List (String × Bool) :=
  l.foldl (fun uniq elem => mapSet uniq elem true) m

/-! ## Intersect -/

/-- The second loop of `Intersect`:
`for _, elem := range operand { if uniqA[elem] && !uniqOp[elem] { intersection[i] = elem; i++ };
 uniqOp[elem] = true }`, returning the buffer and the counter `i`. -/
def intersectLoop : List String → List (String × Bool) → List (String × Bool) →
    List String → Nat → Option (List String × Nat)
  | [], _, _, intersection, i => some (intersection, i)
  | elem :: rest, uniqA, uniqOp, intersection, i =>
    if mapGet uniqA elem && !mapGet uniqOp elem then
      match setAt intersection i elem with
      | none => none
      | some intersection1 =>
        intersectLoop rest uniqA (mapSet uniqOp elem true) intersection1 (i + 1)
    else intersectLoop rest uniqA (mapSet uniqOp elem true) intersection i

/-- Go: `func Intersect(a, operand []string) []string`. -/
def Intersect (a operand : List String) : Option (List String) :=
  match makeSlice (Max a.length operand.length) with
  | none => none
  | some intersection =>
    let uniqA := markAll [] a
    match intersectLoop operand uniqA [] intersection 0 with
    | none => none
    | some (intersection1, i) => sliceTo intersection1 i

/-- The strings that the loop of `Intersect` writes while it runs over `rest`, when the
strings of `seen` have been visited before: the elements of `rest` that occur in `a`, each
at its first visit only. -/
def intersectWrites (a : List String) : List String → List String → List String
  | _, [] => []
  | seen, elem :: rest =>
    if elem ∈ a ∧ elem ∉ seen then elem :: intersectWrites a (elem :: seen) rest
    else intersectWrites a (elem :: seen) rest

/-! ## Union -/

/-- The last loop of `Union`: `for k := range uniq { union[i] = k; i++ }` over the keys in
the order in which `range` yields them. -/
def unionLoop : List String → List String → Nat → Option (List String × Nat)
  | [], union, i => some (union, i)
  | k :: rest, union, i =>
    match setAt union i k with
    | none => none
    | some union1 => unionLoop rest union1 (i + 1)

/-- Go: `func Union(a, operand []string) []string`.  Go leaves the iteration order of
`range` over a map unspecified: `rangeOrder` is the order in which the runtime yields the
keys of a map. -/
def Union (rangeOrder : List (String × Bool) → List String) (a operand : List String) :
    Option (List String) :=
  let uniq := markAll (markAll [] a) operand
  match makeSlice (mapLen uniq) with
  | none => none
  | some union =>
    match unionLoop (rangeOrder uniq) union 0 with
    | none => none
    | some (union1, i) => sliceTo union1 i

/-! ## Reverse -/

/-- Go: `func Reverse(operand []string) []string`:
`for i := range operand { reversed[len(operand)-i-1] = operand[i] }`. -/
def Reverse (operand : List String) : Option (List String) :=
  match makeSlice operand.length with
  | none => none
  | some reversed =>
    (List.range operand.length).foldlM
      (fun (reversed : List String) (i : Nat) =>
        match getAt operand (i : Int) with
        | none => none
        | some x => setAt reversed ((operand.length : Int) - (i : Int) - 1) x)
      reversed

/-! ## Sort -/

/-- The insertion step of the sort: `x` is moved in front of the first element that it is
not greater than. -/
def insertString (x : String) : List String → List String
  | [] => [x]
  | y :: ys => if strLess y x then y :: insertString x ys else x :: y :: ys

/-- Modelled from the spec: `sort.Strings` of the Go standard library, which is not part
of this repository: it sorts a slice of strings in increasing order by Go's `<` on
strings.  It is modelled by an insertion sort driven by that `<`. -/
def sortStrings : List String → List String
  | [] => []
  | x :: xs => insertString x (sortStrings xs)

/-- Go: `func Sort(operand []string) []string`:
`for i := range operand { sorted[i] = operand[i] }; sort.Strings(sorted)`.
(`Sort` is a reserved word of Lean, hence the longer name.) -/
def SortSlice (operand : List String) : Option (List String) :=
  match makeSlice operand.length with
  | none => none
  | some sorted =>
    match (List.range operand.length).foldlM
      (fun (sorted : List String) (i : Nat) =>
        match getAt operand (i : Int) with
        | none => none
        | some x => setAt sorted (i : Int) x)
      sorted with
    | none => none
    | some sorted1 => some (sortStrings sorted1)

/-! ## Head, Tail, Slice -/

/-- Go: the slice expression `s[i:]`. -/
def sliceFrom (s : List String) (i : Int) : Option (List String) :=
  if 0 ≤ i ∧ i ≤ s.length then some (s.drop i.toNat) else none

/-- Go: `func Head(n int, operand []string) []string`:
`if len(operand) < n { return operand }; return operand[:n]`.  In `operand[:n]` the guard
has left `n <= len(operand)`, so the spare capacity of `operand` plays no part. -/
def Head (n : Int) (operand : List String) : Option (List String) :=
  if (operand.length : Int) < n then some operand else sliceTo operand n

/-- Go: `func Tail(n int, operand []string) []string`:
`if len(operand) < n { return operand }; return operand[len(operand)-n:]`. -/
def Tail (n : Int) (operand : List String) : Option (List String) :=
  if (operand.length : Int) < n then some operand
  else sliceFrom operand (wrapInt ((operand.length : Int) - n))

/-- A Go `[]string` with its capacity: `elems` are the `len` elements of the slice and
`spare` are the elements that the backing array holds after them, up to the capacity. -/
structure StrSlice where
  elems : List String
  spare : List String
  deriving DecidableEq, Repr

/-- Go: `len(s)`. -/
def StrSlice.len (s : StrSlice) : Nat := s.elems.length

/-- Go: `cap(s)`. -/
def StrSlice.cap (s : StrSlice) : Nat := s.elems.length + s.spare.length

/-- Go: `func Slice(first, last int, operand []string) []string { return operand[first:last] }`.
For a slice operand the indices of `operand[first:last]` are in range when
`0 <= first <= last <= cap(operand)`; otherwise the expression panics (`none`). -/
def Slice (first last : Int) (operand : StrSlice) : Option StrSlice :=
  if 0 ≤ first ∧ first ≤ last ∧ last ≤ operand.cap then
    some ⟨((operand.elems ++ operand.spare).take last.toNat).drop first.toNat,
      (operand.elems ++ operand.spare).drop last.toNat⟩
  else none

/-! ## Shuffle -/

/-- The loop of `Shuffle`: `for i, p := range perm { shuffled[i] = operand[p] }`. -/
def shuffleLoop : List Nat → List String → List String → Nat → Option (List String)
  | [], _, shuffled, _ => some shuffled
  | p :: rest, operand, shuffled, i =>
    match getAt operand (p : Int) with
    | none => none
    | some x =>
      match setAt shuffled (i : Int) x with
      | none => none
      | some shuffled1 => shuffleLoop rest operand shuffled1 (i + 1)

/-- Go: `func Shuffle(operand []string) []string`.  `pseudoPerm n` is the slice that the
call `pseudo.Perm(n)` on the shared generator returns. -/
def Shuffle (pseudoPerm : Nat → List Nat) (operand : List String) : Option (List String) :=
  match makeSlice operand.length with
  | none => none
  | some shuffled => shuffleLoop (pseudoPerm operand.length) operand shuffled 0

/-! ## Grep -/

/-- Go: `func Grep(pattern string, operand []string) ([]string, error)`.  The package
`regexp` is not part of the repository: `compile` stands for `regexp.Compile` and
`matchString rex` for `rex.MatchString`.  The result is the pair of the returned slice (nil
is `[]`) and the returned error (nil is `none`). -/
def Grep {Regexp Err : Type} (compile : String → Except Err Regexp)
    (matchString : Regexp → String → Bool) (pattern : String) (operand : List String) :
    List String × Option Err :=
  match compile pattern with
  | Except.error err => ([], some err)
  | Except.ok rex =>
    (operand.foldl
      (fun (matching : List String) (elem : String) =>
        if matchString rex elem then matching ++ [elem] else matching)
      [], none)

/-! ## Base64

Strings are the lists of their bytes here, since the result of decoding need not be valid
UTF-8. -/

/-- The character of the standard base64 alphabet `A-Z a-z 0-9 + /` for a 6-bit value. -/
def b64Char (v : Nat) : Nat :=
  if v < 26 then 65 + v
  else if v < 52 then 71 + v
  else if v < 62 then v - 4
  else if v = 62 then 43
  else 47

/-- The 6-bit value of a character of the standard alphabet, if it is one. -/
def b64Value (c : Nat) : Option Nat :=
  if 65 ≤ c ∧ c ≤ 90 then some (c - 65)
  else if 97 ≤ c ∧ c ≤ 122 then some (c - 71)
  else if 48 ≤ c ∧ c ≤ 57 then some (c + 4)
  else if c = 43 then some 62
  else if c = 47 then some 63
  else none

/-- Modelled from the spec: `base64.StdEncoding.EncodeToString` of the Go standard library,
which is not part of this repository: standard base64 (RFC 4648) with `=` padding, three
bytes to four characters. -/
def encodeToString : List Nat → List Nat
  | a :: b :: c :: rest =>
    b64Char (a / 4) :: b64Char (a % 4 * 16 + b / 16) :: b64Char (b % 16 * 4 + c / 64)
      :: b64Char (c % 64) :: encodeToString rest
  | [a, b] => [b64Char (a / 4), b64Char (a % 4 * 16 + b / 16), b64Char (b % 16 * 4), 61]
  | [a] => [b64Char (a / 4), b64Char (a % 4 * 16), 61, 61]
  | [] => []

/-- Decoding of the quanta of four characters; `=` padding is accepted in the last one or
two places of the last quantum only. -/
def decodeQuanta : List Nat → Option (List Nat)
  | [] => some []
  | c0 :: c1 :: c2 :: c3 :: rest =>
    match b64Value c0, b64Value c1 with
    | some v0, some v1 =>
      if c3 = 61 then
        if rest ≠ [] then none
        else if c2 = 61 then some [v0 * 4 + v1 / 16]
        else
          match b64Value c2 with
          | some v2 => some [v0 * 4 + v1 / 16, v1 % 16 * 16 + v2 / 4]
          | none => none
      else
        match b64Value c2, b64Value c3, decodeQuanta rest with
        | some v2, some v3, some tail =>
          some ((v0 * 4 + v1 / 16) :: (v1 % 16 * 16 + v2 / 4) :: (v2 % 4 * 64 + v3) :: tail)
        | _, _, _ => none
    | _, _ => none
  | _ => none

/-- Modelled from the spec: `base64.StdEncoding.DecodeString` of the Go standard library,
which is not part of this repository: carriage returns and line feeds are dropped, the rest
is decoded as padded standard base64, and `none` is the error for malformed input. -/
def decodeString (s : List Nat) : Option (List Nat) :=
  decodeQuanta (s.filter (fun c => c ≠ 10 ∧ c ≠ 13))

/-- Go: `func Base64Encode(operand string) string`. -/
def Base64Encode (operand : List Nat) : List Nat := encodeToString operand

/-- Go: `func Base64Decode(operand string) (string, error)`.  A non-nil error is
`Except.error`; the string that Go returns together with a non-nil error is not modelled. -/
def Base64Decode (operand : List Nat) : Except String (List Nat) :=
  match decodeString operand with
  | some bytes => Except.ok bytes
  | none => Except.error "illegal base64 data"

/-! ## Arithmetic (functions.go, "Math") -/

/-- Go: `func Abs(operand int) int`:
`if operand < 0 { return operand * -1 }; return operand`. -/
def Abs (operand : Int) : Int :=
  if operand < 0 then wrapInt (operand * (-1)) else operand

/-- Go: `func Add(a, operand int) int { return operand + a }`. -/
def Add (a operand : Int) : Int := wrapInt (operand + a)

/-- Go: `func Subtract(a, operand int) int { return operand - a }`. -/
def Subtract (a operand : Int) : Int := wrapInt (operand - a)

/-- Go: `func Multiply(a, operand int) int { return operand * a }`. -/
def Multiply (a operand : Int) : Int := wrapInt (operand * a)

/-- Go: `func Divide(a, operand int) int { return operand / a }`.  Integer division
truncates toward zero and panics for a zero divisor; the quotient of the smallest int by
`-1` wraps around. -/
def Divide (a operand : Int) : Run Int :=
  if a = 0 then Run.panicked "runtime error: integer divide by zero"
  else Run.done (wrapInt (Int.tdiv operand a))

/-- Go: `func Modulo(a, operand int) int { return operand % a }`. -/
def Modulo (a operand : Int) : Run Int :=
  if a = 0 then Run.panicked "runtime error: integer divide by zero"
  else Run.done (wrapInt (Int.tmod operand a))

/-! ## Split and Join

Strings are the lists of their bytes. -/

/-- Go: `s[i:i+len(sep)] == sep` at the head of `s`: the string `s` starts with `sep`. -/
def startsWith : List Nat → List Nat → Bool
  | _, [] => true
  | [], _ :: _ => false
  | c :: s, d :: sep => decide (c = d) && startsWith s sep

/-- The scan of `strings.Split` for a non-empty separator: `piece` holds the bytes since
the last separator, `skip` counts the bytes of a separator just found that are still to be
passed over; each occurrence of `sep` found from left to right ends a piece. -/
def splitLoop (sep : List Nat) : List Nat → Nat → List Nat → List (List Nat)
  | [], _, piece => [piece]
  | _ :: rest, skip + 1, piece => splitLoop sep rest skip piece
  | c :: rest, 0, piece =>
    if startsWith (c :: rest) sep then piece :: splitLoop sep rest (sep.length - 1) []
    else splitLoop sep rest 0 (piece ++ [c])

/-- Modelled from the spec: `strings.Split(s, sep)` of the Go standard library, which is
not part of this repository: `s` is cut at each occurrence of `sep`, which is dropped.  With
the empty separator Go cuts after each UTF-8 sequence; the model cuts after each byte, which
is the same on ASCII strings only. -/
def stringsSplit (s sep : List Nat) : List (List Nat) :=
  if sep = [] then s.map (fun c => [c]) else splitLoop sep s 0 []

/-- Modelled from the spec: `strings.Join(a, sep)` of the Go standard library, which is
not part of this repository: the strings of `a` with `sep` between neighbours. -/
def stringsJoin : List (List Nat) → List Nat → List Nat
  | [], _ => []
  | [x], _ => x
  | x :: y :: rest, sep => x ++ sep ++ stringsJoin (y :: rest) sep

/-- Go: `func Split(sep, operand string) []string { return strings.Split(operand, sep) }`. -/
def Split (sep operand : List Nat) : List (List Nat) := stringsSplit operand sep

/-- Go: `func Join(sep string, operand []string) string { return strings.Join(operand, sep) }`. -/
def Join (sep : List Nat) (operand : List (List Nat)) : List Nat := stringsJoin operand sep

/-! ## Lines -/

/-- Go: `bufio.MaxScanTokenSize`, the size of the largest buffer of a `bufio.Scanner`. -/
def maxScanTokenSize : Nat := 65536

/-- The helper `dropCR` of `bufio.ScanLines`: one trailing carriage return is dropped. -/
def dropCR (data : List Nat) : List Nat :=
  if data.getLast? = some 13 then data.dropLast else data

/-- Modelled from the spec: the loop `for scanner.Scan() { lines = append(lines,
scanner.Text()) }` over a `bufio.Scanner` with the default split function `bufio.ScanLines`,
both of the Go standard library and not part of this repository.  `token` holds the bytes of
the line being read.  A line feed ends the line; the end of the input ends a last,
non-empty line; a line that reaches `maxScanTokenSize` bytes before its line feed does not
fit the buffer and stops the scan with the error `ErrTooLong`. -/
def scanLoop : List Nat → List Nat → List (List Nat) → List (List Nat) × Option String
  | [], token, lines =>
    if token = [] then (lines, none) else (lines ++ [dropCR token], none)
  | c :: rest, token, lines =>
    if c = 10 then scanLoop rest [] (lines ++ [dropCR token])
    else if maxScanTokenSize ≤ token.length + 1 then
      (lines, some "bufio.Scanner: token too long")
    else scanLoop rest (token ++ [c]) lines

/-- Go: `func Lines(operand string) (lines []string, err error)`: the lines that the
scanner yields and `scanner.Err()` (nil is `none`). -/
def Lines (operand : List Nat) : List (List Nat) × Option String :=
  scanLoop operand [] []

/-- The pieces of a string cut at each line feed. -/
def splitNewline : List Nat → List (List Nat)
  | [] => [[]]
  | c :: rest =>
    if c = 10 then [] :: splitNewline rest
    else
      match splitNewline rest with
      | [] => [[c]]
      | p :: ps => (c :: p) :: ps

/-- The entries made from the pieces of a string: a final empty piece gives no entry, and
each other piece loses one trailing carriage return. -/
def lineEntries (pieces : List (List Nat)) : List (List Nat) :=
  (if pieces.getLast? = some [] then pieces.dropLast else pieces).map dropCR

/-- The lines of a string in the words of the specification: the pieces of the operand cut
at each line feed, each with one trailing carriage return stripped, without a final empty
entry when the operand is empty or ends with a line feed. -/
def linesSpec (operand : List Nat) : List (List Nat) :=
  lineEntries (splitNewline operand)

/-- The pieces `ps` with the bytes of `token` put in front of the first piece. -/
def prependFirst (token : List Nat) : List (List Nat) → List (List Nat)
  | [] => [token]
  | p :: ps => (token ++ p) :: ps

/-! ## Repeat -/

/-- Modelled from the spec: `strings.Repeat(s, count)` of the Go standard library, which is
not part of this repository, as it stood when the package was written:
`b := make([]byte, len(s)*count)`, then `b` is filled with copies of `s`.  A negative
length makes `make` panic; later releases panic for every negative `count` and for an
overflowing product as well.  Limits of memory are not modelled. -/
def stringsRepeat (s : List Nat) (count : Int) : Run (List Nat) :=
  if wrapInt ((s.length : Int) * count) < 0 then
    Run.panicked "runtime error: makeslice: len out of range"
  else
    Run.done
      ((List.replicate (wrapInt ((s.length : Int) * count)).toNat s).flatten.take
        (wrapInt ((s.length : Int) * count)).toNat)

/-- Go: `func Repeat(count int, operand string) string { return strings.Repeat(operand, count) }`. -/
def Repeat (count : Int) (operand : List Nat) : Run (List Nat) := stringsRepeat operand count

/-! ## The result of Intersect in the words of the specification -/

/-- Only the first occurrence of each distinct element is kept, in the order of the list. -/
def firstOccurrences : List String → List String
  | [] => []
  | x :: xs => x :: (firstOccurrences xs).filter (fun y => y ≠ x)

/-! ## The writes of Intersect and the length of Seq -/

/-- The indices `i` of the writes `intersection[i] = elem` that the second loop of
`Intersect` performs, in the order of the writes: the loop of `intersectLoop` with the
buffer left out and each index recorded. -/
def intersectIndices : List String → List (String × Bool) → List (String × Bool) → Nat →
    List Nat
  | [], _, _, _ => []
  | elem :: rest, uniqA, uniqOp, i =>
    if mapGet uniqA elem && !mapGet uniqOp elem then
      i :: intersectIndices rest uniqA (mapSet uniqOp elem true) (i + 1)
    else intersectIndices rest uniqA (mapSet uniqOp elem true) i

/-- The length of `Seq(first, last, step)` in the words of the specification:
`(last - first) / step + 1` for an ascending run, `(first - last) / (-step) + 1` for a
descending run, `0` otherwise; `/` is the integer division of Go. -/
def seqLengthSpec (first last step : Int) : Int :=
  if step > 0 ∧ first ≤ last then Int.tdiv (last - first) step + 1
  else if step < 0 ∧ first ≥ last then Int.tdiv (first - last) (-step) + 1
  else 0

/-! # Theorems -/

/-! ## Evaluation on the cases of functions_test.go -/

example : Seq 10 0 5 [] = Run.done [0, 1, 2, 3, 4, 5] := by decide
example : Seq 10 (-1) 3 [] = Run.done [-1, 0, 1, 2, 3] := by decide
example : Intersect ["horse", "dog"] ["dog", "dog", "cat", "horse"] = some ["dog", "horse"] := by
  decide
example : Intersect [] ["dog"] = some [] := by decide
example : Union mapKeys ["horse", "dog"] ["dog", "cat"] = some ["horse", "dog", "cat"] := by
  decide
example : Union (fun m => (mapKeys m).reverse) ["horse", "dog"] ["dog", "dog", "cat"]
    = some ["cat", "dog", "horse"] := by decide
example : Reverse ["dog", "cat", "horse"] = some ["horse", "cat", "dog"] := by decide
example : SortSlice ["dog", "cat", "horse"] = some ["cat", "dog", "horse"] := by decide
example : SortSlice [] = some [] := by decide

/-! ## Machine integers -/

theorem wrapInt_le_maxInt (x : Int) : wrapInt x ≤ maxInt := by
  unfold wrapInt maxInt; omega

theorem minInt_le_wrapInt (x : Int) : minInt ≤ wrapInt x := by
  unfold wrapInt minInt; omega

theorem wrapInt_of_isInt {x : Int} (h : IsInt x) : wrapInt x = x := by
  unfold IsInt minInt maxInt at h; unfold wrapInt; omega

/-! ## Seq: the loops -/

/-- With `last` the largest int the ascending loop never sees its condition fail. -/
theorem seqUp_maxInt (j : Int) :
    ∀ (fuel : Nat) (current : Int) (values : List Int), current ≤ maxInt →
      seqUp fuel j maxInt current values = none := by
  intro fuel
  induction fuel with
  | zero => intro current values _; rfl
  | succ fuel ih =>
    intro current values h
    rw [seqUp, if_pos h]
    exact ih _ _ (wrapInt_le_maxInt _)

/-- With `last` the smallest int the descending loop never sees its condition fail. -/
theorem seqDown_minInt (j : Int) :
    ∀ (fuel : Nat) (current : Int) (values : List Int), minInt ≤ current →
      seqDown fuel j minInt current values = none := by
  intro fuel
  induction fuel with
  | zero => intro current values _; rfl
  | succ fuel ih =>
    intro current values h
    rw [seqDown, if_pos (ge_iff_le.mpr h)]
    exact ih _ _ (minInt_le_wrapInt _)

theorem range_succ_map_affine (n : Nat) (c j : Int) :
    (List.range (n + 1)).map (fun k : Nat => c + (k : Int) * j)
      = c :: (List.range n).map (fun k : Nat => c + j + (k : Int) * j) := by
  rw [List.range_succ_eq_map, List.map_cons, List.map_map]
  refine congrArg₂ _ (by simp) (List.map_congr_left ?_)
  intro k _
  simp only [Function.comp_apply, Nat.cast_succ]
  ring

/-- The ascending loop without overflow: `n` values are emitted, where `n` is the first
multiple count that passes `last`. -/
theorem seqUp_run (j last : Int) (hj : 0 < j) (hov : last + j ≤ maxInt) :
    ∀ (n : Nat) (current : Int) (values : List Int), minInt ≤ current →
      (∀ k : Nat, k < n → current + (k : Int) * j ≤ last) →
      last < current + (n : Int) * j →
      ∀ fuel : Nat, n < fuel →
        seqUp fuel j last current values
          = some (values ++ (List.range n).map (fun k : Nat => current + (k : Int) * j)) := by
  intro n
  induction n with
  | zero =>
    intro current values _ _ hlt fuel hfuel
    obtain ⟨f, rfl⟩ := Nat.exists_eq_succ_of_ne_zero (Nat.pos_iff_ne_zero.mp hfuel)
    have hnot : ¬ current ≤ last := by simpa using hlt
    simp [seqUp, hnot]
  | succ n ih =>
    intro current values hmin hle hlt fuel hfuel
    obtain ⟨f, rfl⟩ := Nat.exists_eq_succ_of_ne_zero (Nat.pos_iff_ne_zero.mp (by omega : 0 < fuel))
    have h0 : current ≤ last := by simpa using hle 0 (Nat.succ_pos n)
    have hw : wrapInt (current + j) = current + j := by
      apply wrapInt_of_isInt
      unfold IsInt; unfold minInt at *; unfold maxInt at *
      constructor <;> omega
    rw [seqUp, if_pos h0, hw]
    have hle1 : ∀ k : Nat, k < n → current + j + (k : Int) * j ≤ last := by
      intro k hk
      have := hle (k + 1) (by omega)
      push_cast at this
      linarith
    have hlt1 : last < current + j + (n : Int) * j := by
      push_cast at hlt
      linarith
    rw [ih (current + j) (values ++ [current]) (by omega) hle1 hlt1 f (by omega),
      range_succ_map_affine]
    simp

/-- The descending loop without overflow. -/
theorem seqDown_run (j last : Int) (hj : j < 0) (hov : minInt ≤ last + j) :
    ∀ (n : Nat) (current : Int) (values : List Int), current ≤ maxInt →
      (∀ k : Nat, k < n → last ≤ current + (k : Int) * j) →
      current + (n : Int) * j < last →
      ∀ fuel : Nat, n < fuel →
        seqDown fuel j last current values
          = some (values ++ (List.range n).map (fun k : Nat => current + (k : Int) * j)) := by
  intro n
  induction n with
  | zero =>
    intro current values _ _ hlt fuel hfuel
    obtain ⟨f, rfl⟩ := Nat.exists_eq_succ_of_ne_zero (Nat.pos_iff_ne_zero.mp hfuel)
    have hnot : ¬ current ≥ last := by simpa using hlt
    simp [seqDown, hnot]
  | succ n ih =>
    intro current values hmax hle hlt fuel hfuel
    obtain ⟨f, rfl⟩ := Nat.exists_eq_succ_of_ne_zero (Nat.pos_iff_ne_zero.mp (by omega : 0 < fuel))
    have h0 : current ≥ last := by simpa using hle 0 (Nat.succ_pos n)
    have hw : wrapInt (current + j) = current + j := by
      apply wrapInt_of_isInt
      unfold IsInt; unfold minInt at *; unfold maxInt at *
      constructor <;> omega
    rw [seqDown, if_pos h0, hw]
    have hle1 : ∀ k : Nat, k < n → last ≤ current + j + (k : Int) * j := by
      intro k hk
      have := hle (k + 1) (by omega)
      push_cast at this
      linarith
    have hlt1 : current + j + (n : Int) * j < last := by
      push_cast at hlt
      linarith
    rw [ih (current + j) (values ++ [current]) (by omega) hle1 hlt1 f (by omega),
      range_succ_map_affine]
    simp

/-- The number of values of an ascending run, in closed form. -/
theorem up_count_bounds (first last j : Int) (hj : 0 < j) (h : first ≤ last) :
    (∀ k : Nat, k < ((last - first) / j).toNat + 1 → first + (k : Int) * j ≤ last) ∧
      last < first + ((((last - first) / j).toNat + 1 : Nat) : Int) * j := by
  have hq0 : 0 ≤ (last - first) / j := Int.ediv_nonneg (by omega) hj.le
  have hcast : (((last - first) / j).toNat : Int) = (last - first) / j := Int.toNat_of_nonneg hq0
  have h1 : (last - first) / j * j ≤ last - first := Int.ediv_mul_le _ (ne_of_gt hj)
  have h2 : last - first < ((last - first) / j + 1) * j := Int.lt_ediv_add_one_mul_self _ hj
  constructor
  · intro k hk
    have hkq : (k : Int) ≤ (last - first) / j := by omega
    have := mul_le_mul_of_nonneg_right hkq hj.le
    linarith
  · push_cast
    rw [hcast]
    linarith

/-- The number of values of a descending run, in closed form. -/
theorem down_count_bounds (first last j : Int) (hj : j < 0) (h : last ≤ first) :
    (∀ k : Nat, k < ((first - last) / (-j)).toNat + 1 → last ≤ first + (k : Int) * j) ∧
      first + ((((first - last) / (-j)).toNat + 1 : Nat) : Int) * j < last := by
  have hj1 : 0 < -j := by omega
  have hq0 : 0 ≤ (first - last) / (-j) := Int.ediv_nonneg (by omega) hj1.le
  have hcast : (((first - last) / (-j)).toNat : Int) = (first - last) / (-j) :=
    Int.toNat_of_nonneg hq0
  have h1 : (first - last) / (-j) * (-j) ≤ first - last := Int.ediv_mul_le _ (ne_of_gt hj1)
  have h2 : first - last < ((first - last) / (-j) + 1) * (-j) :=
    Int.lt_ediv_add_one_mul_self _ hj1
  constructor
  · intro k hk
    have hkq : (k : Int) ≤ (first - last) / (-j) := by omega
    have := mul_le_mul_of_nonneg_right hkq hj1.le
    linarith
  · push_cast
    rw [hcast]
    linarith

/-- `Seq` with a positive step whose last addition cannot overflow (`last + step` is still
an int): every run with enough fuel returns the values `first + k*step`, `k = 0, 1, ...`,
that are `<= last`, in order of `k`. -/
theorem Seq_ascending_in_range (first last step : Int) (hpos : 0 < step)
    (hfirst : IsInt first) (hov : last + step ≤ maxInt) :
    ∃ n : Nat, (∀ k : Nat, first + (k : Int) * step ≤ last ↔ k < n) ∧
      ∀ fuel : Nat, n < fuel →
        Seq fuel first last [step]
          = Run.done ((List.range n).map (fun k : Nat => first + (k : Int) * step)) := by
  have hne : step ≠ 0 := ne_of_gt hpos
  have key : ∀ n : Nat, (∀ k : Nat, k < n → first + (k : Int) * step ≤ last) →
      last < first + (n : Int) * step →
      (∀ k : Nat, first + (k : Int) * step ≤ last ↔ k < n) ∧
      ∀ fuel : Nat, n < fuel →
        Seq fuel first last [step]
          = Run.done ((List.range n).map (fun k : Nat => first + (k : Int) * step)) := by
    intro n hle hlt
    constructor
    · intro k
      constructor
      · intro hk
        by_contra hcon
        have hnk : (n : Int) ≤ k := by exact_mod_cast Nat.le_of_not_lt hcon
        have := mul_le_mul_of_nonneg_right hnk hpos.le
        linarith
      · exact hle k
    · intro fuel hfuel
      have := seqUp_run step last hpos hov n first [] hfirst.1 hle hlt fuel hfuel
      simp [Seq, seqBody, hne, hpos, this]
  by_cases h : first ≤ last
  · obtain ⟨ha, hb⟩ := up_count_bounds first last step hpos h
    exact ⟨_, key _ ha hb⟩
  · exact ⟨0, key 0 (fun k hk => absurd hk (Nat.not_lt_zero k)) (by simpa using h)⟩

/-- `Seq` with a negative step whose last addition cannot overflow (`last + step` is still
an int): every run with enough fuel returns the values `first + k*step`, `k = 0, 1, ...`,
that are `>= last`, in order of `k`. -/
theorem Seq_descending_in_range (first last step : Int) (hneg : step < 0)
    (hfirst : IsInt first) (hov : minInt ≤ last + step) :
    ∃ n : Nat, (∀ k : Nat, last ≤ first + (k : Int) * step ↔ k < n) ∧
      ∀ fuel : Nat, n < fuel →
        Seq fuel first last [step]
          = Run.done ((List.range n).map (fun k : Nat => first + (k : Int) * step)) := by
  have hne : step ≠ 0 := ne_of_lt hneg
  have hnpos : ¬ step > 0 := by omega
  have key : ∀ n : Nat, (∀ k : Nat, k < n → last ≤ first + (k : Int) * step) →
      first + (n : Int) * step < last →
      (∀ k : Nat, last ≤ first + (k : Int) * step ↔ k < n) ∧
      ∀ fuel : Nat, n < fuel →
        Seq fuel first last [step]
          = Run.done ((List.range n).map (fun k : Nat => first + (k : Int) * step)) := by
    intro n hle hlt
    constructor
    · intro k
      constructor
      · intro hk
        by_contra hcon
        have hnk : (n : Int) ≤ k := by exact_mod_cast Nat.le_of_not_lt hcon
        have := mul_le_mul_of_nonpos_right hnk hneg.le
        linarith
      · exact hle k
    · intro fuel hfuel
      have := seqDown_run step last hneg hov n first [] hfirst.2 hle hlt fuel hfuel
      simp [Seq, seqBody, hne, hnpos, this]
  by_cases h : last ≤ first
  · obtain ⟨ha, hb⟩ := down_count_bounds first last step hneg h
    exact ⟨_, key _ ha hb⟩
  · exact ⟨0, key 0 (fun k hk => absurd hk (Nat.not_lt_zero k)) (by simpa using h)⟩

/-- The final value of an ascending `Seq` whose last addition cannot overflow: it lies in
`(last - step, last]` and is `last` exactly when `step` divides `last - first`. -/
theorem Seq_ascending_final_value (first last step : Int) (hpos : 0 < step)
    (hfirst : IsInt first) (hov : last + step ≤ maxInt) (hle : first ≤ last) :
    ∃ (n : Nat) (vs : List Int) (v : Int),
      (∀ fuel : Nat, n < fuel → Seq fuel first last [step] = Run.done vs) ∧
      vs.getLast? = some v ∧ last - step < v ∧ v ≤ last ∧ (v = last ↔ step ∣ last - first) := by
  obtain ⟨n, hiff, hrun⟩ := Seq_ascending_in_range first last step hpos hfirst hov
  have hn : 0 < n := (hiff 0).mp (by simpa using hle)
  obtain ⟨m, rfl⟩ := Nat.exists_eq_succ_of_ne_zero (Nat.pos_iff_ne_zero.mp hn)
  have hv1 : first + (m : Int) * step ≤ last := (hiff m).mpr (Nat.lt_succ_self m)
  have hv2 : ¬ first + ((m + 1 : Nat) : Int) * step ≤ last :=
    fun h => Nat.lt_irrefl _ ((hiff (m + 1)).mp h)
  push_cast at hv2
  refine ⟨m + 1, _, first + (m : Int) * step, hrun, ?_, by linarith, hv1, ?_⟩
  · rw [List.range_succ, List.map_append]
    simp
  · constructor
    · intro h
      exact ⟨m, by linarith⟩
    · rintro ⟨c, hc⟩
      have hc0 : 0 ≤ c := by
        by_contra hneg
        have : step * c < 0 := mul_neg_of_pos_of_neg hpos (by omega)
        omega
      have hk : first + ((c.toNat : Nat) : Int) * step ≤ last := by
        rw [Int.toNat_of_nonneg hc0]
        linarith
      have hcm : c.toNat < m + 1 := (hiff c.toNat).mp hk
      have hcm1 : c ≤ (m : Int) := by omega
      have := mul_le_mul_of_nonneg_right hcm1 hpos.le
      linarith

/-- The final value of a descending `Seq` whose last addition cannot overflow: it lies in
`[last, last - step)` and is `last` exactly when `step` divides `first - last`. -/
theorem Seq_descending_final_value (first last step : Int) (hneg : step < 0)
    (hfirst : IsInt first) (hov : minInt ≤ last + step) (hle : last ≤ first) :
    ∃ (n : Nat) (vs : List Int) (v : Int),
      (∀ fuel : Nat, n < fuel → Seq fuel first last [step] = Run.done vs) ∧
      vs.getLast? = some v ∧ last ≤ v ∧ v < last - step ∧ (v = last ↔ step ∣ first - last) := by
  obtain ⟨n, hiff, hrun⟩ := Seq_descending_in_range first last step hneg hfirst hov
  have hn : 0 < n := (hiff 0).mp (by simpa using hle)
  obtain ⟨m, rfl⟩ := Nat.exists_eq_succ_of_ne_zero (Nat.pos_iff_ne_zero.mp hn)
  have hv1 : last ≤ first + (m : Int) * step := (hiff m).mpr (Nat.lt_succ_self m)
  have hv2 : ¬ last ≤ first + ((m + 1 : Nat) : Int) * step :=
    fun h => Nat.lt_irrefl _ ((hiff (m + 1)).mp h)
  push_cast at hv2
  refine ⟨m + 1, _, first + (m : Int) * step, hrun, ?_, hv1, by linarith, ?_⟩
  · rw [List.range_succ, List.map_append]
    simp
  · constructor
    · intro h
      exact ⟨-(m : Int), by linarith⟩
    · rintro ⟨c, hc⟩
      have hc0 : c ≤ 0 := by
        by_contra hcpos
        have : step * c < 0 := mul_neg_of_neg_of_pos hneg (by omega)
        omega
      have hk : last ≤ first + (((-c).toNat : Nat) : Int) * step := by
        rw [Int.toNat_of_nonneg (by omega)]
        linarith
      have hcm : (-c).toNat < m + 1 := (hiff (-c).toNat).mp hk
      have hcm1 : -c ≤ (m : Int) := by omega
      have := mul_le_mul_of_nonpos_right hcm1 hneg.le
      linarith

/-! ## Seq: the claims -/

/-- C1: `Seq(first, last)` is claimed to be the list of all `first + k` that are `<= last`,
for all ints.  At `first = maxInt - 1`, `last = maxInt` that list is `[maxInt - 1, maxInt]`,
but `current += j` wraps around to `minInt`, the condition `current <= last` stays true, and
the call returns no list, whatever the fuel. -/
theorem Seq_below_maxInt_never_returns (fuel : Nat) :
    Seq fuel (maxInt - 1) maxInt [] = Run.outOfFuel := by
  have h := seqUp_maxInt 1 fuel (maxInt - 1) [] (by decide)
  simp [Seq, seqBody, h]

/-- C2: `Seq` panics exactly when more than one `incr` value is supplied or the single
supplied value is zero; with any other arguments the outcome is not a panic. -/
theorem Seq_panics_iff (fuel : Nat) (first last : Int) (incr : List Int) :
    (∃ msg, Seq fuel first last incr = Run.panicked msg) ↔ (1 < incr.length ∨ incr = [0]) := by
  have hbody : ∀ j msg, seqBody fuel first last j ≠ Run.panicked msg := by
    intro j msg
    unfold seqBody
    split <;> simp
  match incr with
  | [] => simp [Seq, hbody]
  | [j] =>
    by_cases hj : j = 0
    · simp [Seq, hj]
    · simp [Seq, hj, hbody]
  | _ :: _ :: _ => simp [Seq]

/-- C3: with a positive step and `first > last`, or a negative step and `first < last`, the
loop body never runs and `Seq` returns the empty list; so does `Seq(4, 0)` with the default
step. -/
theorem Seq_empty_of_bound_passed (fuel : Nat) (first last step : Int)
    (h : (0 < step ∧ last < first) ∨ (step < 0 ∧ first < last)) :
    Seq (fuel + 1) first last [step] = Run.done [] ∧ Seq (fuel + 1) 4 0 [] = Run.done [] := by
  constructor
  · rcases h with ⟨hs, hlt⟩ | ⟨hs, hlt⟩
    · have hne : step ≠ 0 := ne_of_gt hs
      have hnot : ¬ first ≤ last := by omega
      simp [Seq, seqBody, hne, hs, seqUp, hnot]
    · have hne : step ≠ 0 := ne_of_lt hs
      have hnpos : ¬ step > 0 := by omega
      have hnot : ¬ first ≥ last := by omega
      simp [Seq, seqBody, hne, hnpos, seqDown, hnot]
  · simp [Seq, seqBody, seqUp]

theorem Seq_empty_of_bound_passed_witness :
    ((0 < (3 : Int) ∧ (2 : Int) < 7) ∨ ((3 : Int) < 0 ∧ (7 : Int) < 2)) ∧
      (Seq (0 + 1) 7 2 [3] = Run.done [] ∧ Seq (0 + 1) 4 0 [] = Run.done []) :=
  ⟨by decide, Seq_empty_of_bound_passed 0 7 2 3 (by decide)⟩

/-- C4: for a negative step and `first >= last` the final emitted value is claimed to lie in
`[last, last - step)`.  At `first = last = minInt`, `step = -1` there is no final value:
`current += j` wraps around to `maxInt`, the condition `current >= last` stays true, and the
call returns no list, whatever the fuel. -/
theorem Seq_at_minInt_never_returns (fuel : Nat) :
    Seq fuel minInt minInt [-1] = Run.outOfFuel := by
  have h := seqDown_minInt (-1) fuel minInt [] (le_refl _)
  simp [Seq, seqBody, h]

/-- C5: the loop of `Seq` is claimed to terminate for all ints.  When `last` is the largest
int the condition `current <= last` of the ascending loop holds for every int, so for every
int `first` and every positive step the call does not return, whatever the fuel. -/
theorem Seq_to_maxInt_never_terminates (fuel : Nat) (first step : Int)
    (hfirst : IsInt first) (hstep : 0 < step) :
    Seq fuel first maxInt [step] = Run.outOfFuel := by
  have h := seqUp_maxInt step fuel first [] hfirst.2
  have hne : step ≠ 0 := ne_of_gt hstep
  simp [Seq, seqBody, hne, hstep, h]

theorem Seq_to_maxInt_never_terminates_witness :
    IsInt 0 ∧ (0 : Int) < 1 ∧ Seq 1000 0 maxInt [1] = Run.outOfFuel :=
  ⟨by decide, by decide, Seq_to_maxInt_never_terminates 1000 0 1 (by decide) (by decide)⟩

/-! ## Slices and maps -/

theorem makeSlice_length (n : Nat) : makeSlice (n : Int) = some (List.replicate n "") := by
  simp [makeSlice]

theorem setAt_nat (s : List String) (i : Nat) (x : String) (h : i < s.length) :
    setAt s (i : Int) x = some (s.set i x) := by
  simp [setAt, h]

theorem getAt_nat (s : List String) (i : Nat) (h : i < s.length) :
    getAt s (i : Int) = some (s.get ⟨i, h⟩) := by
  simp [getAt, h]

theorem sliceTo_nat (s : List String) (i : Nat) (h : i ≤ s.length) :
    sliceTo s (i : Int) = some (s.take i) := by
  simp [sliceTo, h]

theorem take_succ_set (s : List String) (i : Nat) (x : String) (h : i < s.length) :
    (s.set i x).take (i + 1) = s.take i ++ [x] := by
  induction s generalizing i with
  | nil => simp at h
  | cons y ys ih =>
    cases i with
    | zero => simp
    | succ i =>
      simp only [List.length_cons, Nat.succ_lt_succ_iff] at h
      simp [ih i h]

theorem mapGet_mapSet (m : List (String × Bool)) (k : String) (v : Bool) (x : String) :
    mapGet (mapSet m k v) x = if x = k then v else mapGet m x := by
  induction m with
  | nil => simp [mapSet, mapGet]
  | cons e rest ih =>
    obtain ⟨k1, v1⟩ := e
    by_cases hk : k = k1
    · subst hk
      by_cases hx : x = k <;> simp [mapSet, mapGet, hx]
    · by_cases hx : x = k1
      · subst hx
        have : ¬ x = k := fun h => hk h.symm
        simp [mapSet, mapGet, hk, this]
      · simp [mapSet, mapGet, hk, hx, ih]

theorem mapGet_markAll (l : List String) :
    ∀ (m : List (String × Bool)) (x : String),
      mapGet (markAll m l) x = true ↔ (x ∈ l ∨ mapGet m x = true) := by
  induction l with
  | nil => intro m x; simp [markAll]
  | cons e rest ih =>
    intro m x
    have := ih (mapSet m e true) x
    simp only [markAll, List.foldl_cons] at this ⊢
    rw [this, mapGet_mapSet]
    by_cases hx : x = e <;> simp [hx]

theorem mapKeys_mapSet_mem (m : List (String × Bool)) (k : String) (v : Bool) (x : String) :
    x ∈ mapKeys (mapSet m k v) ↔ (x = k ∨ x ∈ mapKeys m) := by
  induction m with
  | nil => simp [mapSet, mapKeys]
  | cons e rest ih =>
    obtain ⟨k1, v1⟩ := e
    by_cases hk : k = k1
    · subst hk
      simp [mapSet, mapKeys]
    · simp only [mapKeys] at ih
      simp [mapSet, mapKeys, hk, ih]
      tauto

theorem mapKeys_mapSet_nodup (m : List (String × Bool)) (k : String) (v : Bool)
    (h : (mapKeys m).Nodup) : (mapKeys (mapSet m k v)).Nodup := by
  induction m with
  | nil => simp [mapSet, mapKeys]
  | cons e rest ih =>
    obtain ⟨k1, v1⟩ := e
    by_cases hk : k = k1
    · subst hk
      simpa [mapSet, mapKeys] using h
    · have hcons : (k1 :: mapKeys rest).Nodup := by simpa [mapKeys] using h
      have hrest := ih (List.nodup_cons.mp hcons).2
      have hnot : k1 ∉ mapKeys (mapSet rest k v) := by
        rw [mapKeys_mapSet_mem]
        rintro (h1 | h1)
        · exact hk h1.symm
        · exact (List.nodup_cons.mp hcons).1 h1
      have : (k1 :: mapKeys (mapSet rest k v)).Nodup := List.nodup_cons.mpr ⟨hnot, hrest⟩
      simpa [mapSet, mapKeys, hk] using this

theorem mapKeys_markAll (l : List String) :
    ∀ (m : List (String × Bool)), (mapKeys m).Nodup →
      (mapKeys (markAll m l)).Nodup ∧
        ∀ x, x ∈ mapKeys (markAll m l) ↔ (x ∈ l ∨ x ∈ mapKeys m) := by
  induction l with
  | nil => intro m h; simp [markAll, h]
  | cons e rest ih =>
    intro m h
    obtain ⟨hn, hm⟩ := ih (mapSet m e true) (mapKeys_mapSet_nodup m e true h)
    simp only [markAll, List.foldl_cons] at hn hm ⊢
    refine ⟨hn, fun x => ?_⟩
    rw [hm, mapKeys_mapSet_mem]
    simp only [List.mem_cons]
    tauto

/-! ## Intersect -/

theorem intersectWrites_length_le (a : List String) :
    ∀ (rest seen : List String), (intersectWrites a seen rest).length ≤ rest.length := by
  intro rest
  induction rest with
  | nil => intro seen; simp [intersectWrites]
  | cons e rest ih =>
    intro seen
    have := ih (e :: seen)
    by_cases h : e ∈ a ∧ e ∉ seen
    · simp only [intersectWrites, if_pos h, List.length_cons]; omega
    · simp only [intersectWrites, if_neg h, List.length_cons]; omega

theorem mem_intersectWrites (a : List String) :
    ∀ (rest seen : List String) (x : String),
      x ∈ intersectWrites a seen rest ↔ (x ∈ a ∧ x ∈ rest ∧ x ∉ seen) := by
  intro rest
  induction rest with
  | nil => intro seen x; simp [intersectWrites]
  | cons e rest ih =>
    intro seen x
    by_cases h : e ∈ a ∧ e ∉ seen
    · simp only [intersectWrites, if_pos h, List.mem_cons, ih, not_or]
      constructor
      · rintro (rfl | ⟨h1, h2, h3, h4⟩)
        · exact ⟨h.1, Or.inl rfl, h.2⟩
        · exact ⟨h1, Or.inr h2, h4⟩
      · rintro ⟨h1, h2 | h2, h3⟩
        · exact Or.inl h2
        · by_cases hx : x = e
          · exact Or.inl hx
          · exact Or.inr ⟨h1, h2, hx, h3⟩
    · simp only [intersectWrites, if_neg h, List.mem_cons, ih, not_or]
      constructor
      · rintro ⟨h1, h2, _, h4⟩
        exact ⟨h1, Or.inr h2, h4⟩
      · rintro ⟨h1, h2 | h2, h3⟩
        · subst h2
          exact absurd ⟨h1, h3⟩ h
        · refine ⟨h1, h2, ?_, h3⟩
          rintro rfl
          exact h ⟨h1, h3⟩

theorem intersectWrites_nodup (a : List String) :
    ∀ (rest seen : List String), (intersectWrites a seen rest).Nodup := by
  intro rest
  induction rest with
  | nil => intro seen; simp [intersectWrites]
  | cons e rest ih =>
    intro seen
    by_cases h : e ∈ a ∧ e ∉ seen
    · simp only [intersectWrites, if_pos h]
      refine List.nodup_cons.mpr ⟨?_, ih _⟩
      rw [mem_intersectWrites]
      simp
    · simp only [intersectWrites, if_neg h]
      exact ih _

/-- Invariant of the second loop of `Intersect`: no write leaves the buffer, the counter
advances by the number of writes, and the written part of the buffer grows by exactly the
strings of `intersectWrites`. -/
theorem intersectLoop_run (a : List String) (uniqA : List (String × Bool))
    (hA : ∀ x, mapGet uniqA x = true ↔ x ∈ a) :
    ∀ (rest seen : List String) (uniqOp : List (String × Bool)) (buf : List String) (i : Nat),
      (∀ x, mapGet uniqOp x = true ↔ x ∈ seen) →
      i + (intersectWrites a seen rest).length ≤ buf.length →
      ∃ buf1, intersectLoop rest uniqA uniqOp buf i
            = some (buf1, i + (intersectWrites a seen rest).length) ∧
          buf1.length = buf.length ∧
          buf1.take (i + (intersectWrites a seen rest).length)
            = buf.take i ++ intersectWrites a seen rest := by
  intro rest
  induction rest with
  | nil =>
    intro seen uniqOp buf i _ _
    exact ⟨buf, by simp [intersectLoop, intersectWrites]⟩
  | cons e rest ih =>
    intro seen uniqOp buf i hOp hlen
    have hOp1 : ∀ x, mapGet (mapSet uniqOp e true) x = true ↔ x ∈ e :: seen := by
      intro x
      rw [mapGet_mapSet]
      by_cases hx : x = e <;> simp [hx, hOp]
    by_cases h : e ∈ a ∧ e ∉ seen
    · have hcond : (mapGet uniqA e && !mapGet uniqOp e) = true := by
        have h1 : mapGet uniqA e = true := (hA e).mpr h.1
        have h2 : mapGet uniqOp e = false := by
          cases hg : mapGet uniqOp e
          · rfl
          · exact absurd ((hOp e).mp hg) h.2
        simp [h1, h2]
      simp only [intersectWrites, if_pos h, List.length_cons] at hlen ⊢
      have hi : i < buf.length := by omega
      obtain ⟨buf1, h1, h2, h3⟩ :=
        ih (e :: seen) (mapSet uniqOp e true) (buf.set i e) (i + 1) hOp1
          (by simp only [List.length_set]; omega)
      have harith : i + 1 + (intersectWrites a (e :: seen) rest).length
          = i + ((intersectWrites a (e :: seen) rest).length + 1) := by omega
      refine ⟨buf1, ?_, ?_, ?_⟩
      · rw [intersectLoop, if_pos hcond, setAt_nat buf i e hi]
        simp only
        rw [h1, harith]
      · rw [h2, List.length_set]
      · rw [← harith, h3, take_succ_set buf i e hi]
        simp
    · have hcond : ¬ (mapGet uniqA e && !mapGet uniqOp e) = true := by
        intro hc
        simp only [Bool.and_eq_true, Bool.not_eq_true', hA] at hc
        refine h ⟨hc.1, fun hmem => ?_⟩
        have := (hOp e).mpr hmem
        rw [hc.2] at this
        exact Bool.noConfusion this
      simp only [intersectWrites, if_neg h] at hlen ⊢
      obtain ⟨buf1, h1, h2, h3⟩ :=
        ih (e :: seen) (mapSet uniqOp e true) buf i hOp1 hlen
      exact ⟨buf1, by rw [intersectLoop, if_neg hcond, h1], h2, h3⟩

theorem Max_length_ge (a operand : List String) :
    0 ≤ Max a.length operand.length ∧
      operand.length ≤ (Max (a.length : Int) (operand.length : Int)).toNat ∧
      a.length ≤ (Max (a.length : Int) (operand.length : Int)).toNat := by
  unfold Max
  split <;> omega

/-- `Intersect` returns, without a panic, the strings written by its loop. -/
theorem Intersect_eq_writes (a operand : List String) :
    Intersect a operand = some (intersectWrites a [] operand) := by
  obtain ⟨h0, hop, _⟩ := Max_length_ge a operand
  have hA : ∀ x, mapGet (markAll [] a) x = true ↔ x ∈ a := by
    intro x
    rw [mapGet_markAll]
    simp [mapGet]
  have hlen := intersectWrites_length_le a operand []
  obtain ⟨buf1, h1, h2, h3⟩ :=
    intersectLoop_run a (markAll [] a) hA operand [] []
      (List.replicate (Max (a.length : Int) (operand.length : Int)).toNat "") 0
      (by intro x; simp [mapGet])
      (by simp only [List.length_replicate]; omega)
  simp only [Nat.zero_add, List.take_zero, List.nil_append, List.length_replicate] at h1 h2 h3
  have hslice : sliceTo buf1 ((intersectWrites a [] operand).length : Int)
      = some (intersectWrites a [] operand) := by
    rw [sliceTo_nat buf1 _ (by omega), h3]
  simp only [Intersect, makeSlice, if_pos h0, h1]
  exact hslice

/-- C6: `Intersect(a, operand)` returns a list without duplicates whose members are exactly
the strings that occur in both `a` and `operand`; its length is the number of distinct common
strings and it is empty when either input is empty. -/
theorem Intersect_is_set_intersection (a operand : List String) :
    ∃ r, Intersect a operand = some r ∧ r.Nodup ∧
      (∀ x, x ∈ r ↔ (x ∈ a ∧ x ∈ operand)) ∧
      r.length = (a.toFinset ∩ operand.toFinset).card ∧
      ((a = [] ∨ operand = []) → r = []) := by
  have hmem : ∀ x, x ∈ intersectWrites a [] operand ↔ (x ∈ a ∧ x ∈ operand) := by
    intro x
    rw [mem_intersectWrites]
    simp
  have hnd := intersectWrites_nodup a operand []
  refine ⟨_, Intersect_eq_writes a operand, hnd, hmem, ?_, ?_⟩
  · rw [← List.toFinset_card_of_nodup hnd]
    congr 1
    ext x
    simp [hmem]
  · intro h
    apply List.eq_nil_iff_forall_not_mem.mpr
    intro x hx
    have := (hmem x).mp hx
    rcases h with h | h <;> simp [h] at this

/-! ## Union -/

/-- Invariant of the last loop of `Union`: no write leaves the buffer and the written part
grows by the keys in the order of the iteration. -/
theorem unionLoop_run :
    ∀ (ks buf : List String) (i : Nat), i + ks.length ≤ buf.length →
      ∃ buf1, unionLoop ks buf i = some (buf1, i + ks.length) ∧
        buf1.length = buf.length ∧ buf1.take (i + ks.length) = buf.take i ++ ks := by
  intro ks
  induction ks with
  | nil =>
    intro buf i _
    exact ⟨buf, by simp [unionLoop]⟩
  | cons k rest ih =>
    intro buf i hlen
    simp only [List.length_cons] at hlen ⊢
    have hi : i < buf.length := by omega
    obtain ⟨buf1, h1, h2, h3⟩ :=
      ih (buf.set i k) (i + 1) (by simp only [List.length_set]; omega)
    have harith : i + 1 + rest.length = i + (rest.length + 1) := by omega
    refine ⟨buf1, ?_, ?_, ?_⟩
    · rw [unionLoop, setAt_nat buf i k hi]
      simp only
      rw [h1, harith]
    · rw [h2, List.length_set]
    · rw [← harith, h3, take_succ_set buf i k hi]
      simp

/-- `Union` returns, without a panic, the keys of its map in the order of the iteration. -/
theorem Union_eq_keys (rangeOrder : List (String × Bool) → List String)
    (a operand : List String)
    (hlen : (rangeOrder (markAll (markAll [] a) operand)).length
      = mapLen (markAll (markAll [] a) operand)) :
    Union rangeOrder a operand = some (rangeOrder (markAll (markAll [] a) operand)) := by
  obtain ⟨buf1, h1, h2, h3⟩ :=
    unionLoop_run (rangeOrder (markAll (markAll [] a) operand))
      (List.replicate (mapLen (markAll (markAll [] a) operand)) "") 0
      (by simp only [List.length_replicate]; omega)
  simp only [Nat.zero_add, List.take_zero, List.nil_append, List.length_replicate] at h1 h2 h3
  have hslice : sliceTo buf1 ((rangeOrder (markAll (markAll [] a) operand)).length : Int)
      = some (rangeOrder (markAll (markAll [] a) operand)) := by
    rw [sliceTo_nat buf1 _ (by omega), h3]
  simp only [Union, makeSlice_length, h1]
  exact hslice

/-- C7: whatever order `range` yields the keys of the map in, `Union(a, operand)` returns a
list without duplicates whose members are exactly the strings that occur in `a` or in
`operand`; its length is the number of distinct strings of the two lists together. -/
theorem Union_is_set_union (rangeOrder : List (String × Bool) → List String)
    (hrange : ∀ m, (rangeOrder m).Perm (mapKeys m)) (a operand : List String) :
    ∃ r, Union rangeOrder a operand = some r ∧ r.Nodup ∧
      (∀ x, x ∈ r ↔ (x ∈ a ∨ x ∈ operand)) ∧
      r.length = (a.toFinset ∪ operand.toFinset).card := by
  have hp := hrange (markAll (markAll [] a) operand)
  obtain ⟨hn1, hm1⟩ := mapKeys_markAll a [] (by simp [mapKeys])
  obtain ⟨hn2, hm2⟩ := mapKeys_markAll operand (markAll [] a) hn1
  have hnd : (rangeOrder (markAll (markAll [] a) operand)).Nodup := hp.nodup_iff.mpr hn2
  have hmem : ∀ x, x ∈ rangeOrder (markAll (markAll [] a) operand) ↔ (x ∈ a ∨ x ∈ operand) := by
    intro x
    rw [hp.mem_iff, hm2, hm1]
    simp [mapKeys]
    tauto
  have hlen : (rangeOrder (markAll (markAll [] a) operand)).length
      = mapLen (markAll (markAll [] a) operand) := by
    rw [hp.length_eq]
    simp [mapKeys, mapLen]
  refine ⟨_, Union_eq_keys rangeOrder a operand hlen, hnd, hmem, ?_⟩
  rw [← List.toFinset_card_of_nodup hnd]
  congr 1
  ext x
  simp [hmem]

theorem Union_is_set_union_witness :
    (∀ m, ((fun m => (mapKeys m).reverse) m).Perm (mapKeys m)) ∧
      ∃ r, Union (fun m => (mapKeys m).reverse) ["horse", "dog"] ["dog", "dog", "cat"] = some r ∧
        r.Nodup ∧ (∀ x, x ∈ r ↔ (x ∈ ["horse", "dog"] ∨ x ∈ ["dog", "dog", "cat"])) ∧
        r.length = (["horse", "dog"].toFinset ∪ ["dog", "dog", "cat"].toFinset).card :=
  ⟨fun m => List.reverse_perm (mapKeys m),
    Union_is_set_union (fun m => (mapKeys m).reverse) (fun m => List.reverse_perm (mapKeys m))
      ["horse", "dog"] ["dog", "dog", "cat"]⟩

/-! ## Reverse -/

theorem set_length_append (l r : List String) (d x : String) :
    (l ++ d :: r).set l.length x = l ++ x :: r := by
  induction l with
  | nil => simp
  | cons y ys ih => simp [ih]

theorem take_succ_reverse (operand : List String) (k : Nat) (h : k < operand.length) :
    (operand.take (k + 1)).reverse = operand.get ⟨k, h⟩ :: (operand.take k).reverse := by
  rw [List.take_succ, List.getElem?_eq_getElem h]
  simp

/-- Invariant of the loop of `Reverse`: after the indices `0 .. k-1` the buffer holds the
first `k` elements of `operand`, reversed, in its last `k` places. -/
theorem reverse_loop_run (operand : List String) :
    ∀ k : Nat, k ≤ operand.length →
      (List.range k).foldlM
        (fun (reversed : List String) (i : Nat) =>
          match getAt operand (i : Int) with
          | none => none
          | some x => setAt reversed ((operand.length : Int) - (i : Int) - 1) x)
        (List.replicate operand.length "")
      = some (List.replicate (operand.length - k) "" ++ (operand.take k).reverse) := by
  intro k
  induction k with
  | zero => intro _; simp
  | succ k ih =>
    intro hk
    have hlt : k < operand.length := hk
    rw [List.range_succ, List.foldlM_append, ih (Nat.le_of_lt hlt)]
    have hrep : List.replicate (operand.length - k) ""
        = List.replicate (operand.length - (k + 1)) "" ++ ["" ] := by
      rw [← List.replicate_succ']
      congr 1
      omega
    have hidx : ((operand.length : Int) - (k : Int) - 1)
        = ((operand.length - (k + 1) : Nat) : Int) := by omega
    have hset : setAt (List.replicate (operand.length - k) "" ++ (operand.take k).reverse)
          ((operand.length : Int) - (k : Int) - 1) (operand.get ⟨k, hlt⟩)
        = some (List.replicate (operand.length - (k + 1)) ""
            ++ operand.get ⟨k, hlt⟩ :: (operand.take k).reverse) := by
      rw [hidx, setAt_nat _ _ _ (by simp; omega), hrep, List.append_assoc]
      have := set_length_append (List.replicate (operand.length - (k + 1)) "")
        ((operand.take k).reverse) "" (operand.get ⟨k, hlt⟩)
      simp only [List.length_replicate] at this
      simp [this]
    simp only [Option.some_bind, Option.bind_eq_bind, List.foldlM_cons, List.foldlM_nil,
      getAt_nat operand k hlt, hset, take_succ_reverse operand k hlt]
    rfl

/-- `Reverse` returns, without a panic, the elements of its operand in reverse order. -/
theorem Reverse_eq_reverse (operand : List String) :
    Reverse operand = some operand.reverse := by
  have h := reverse_loop_run operand operand.length (le_refl _)
  simp only [Nat.sub_self, List.replicate_zero, List.nil_append, List.take_length] at h
  simp only [Reverse, makeSlice_length]
  exact h

/-- C9: reversing twice gives the operand back: `Reverse(Reverse(s)) = s`. -/
theorem Reverse_Reverse (s : List String) :
    (Reverse s).bind Reverse = some s := by
  rw [Reverse_eq_reverse, Option.some_bind, Reverse_eq_reverse, List.reverse_reverse]

/-- C10: `Reverse(s)` has the length of `s` and its element at index `i` is the element of
`s` at index `len(s)-1-i`; `Reverse([dog,cat,horse]) = [horse,cat,dog]`, `Reverse([]) = []`. -/
theorem Reverse_elements (s : List String) :
    (∃ r, Reverse s = some r ∧ r.length = s.length ∧
      ∀ i : Nat, i < s.length → r[i]? = s[s.length - 1 - i]?) ∧
    Reverse ["dog", "cat", "horse"] = some ["horse", "cat", "dog"] ∧
    Reverse [] = some [] := by
  refine ⟨⟨s.reverse, Reverse_eq_reverse s, List.length_reverse s, ?_⟩, by decide, by decide⟩
  intro i hi
  exact List.getElem?_reverse hi

/-! ## Sort -/

theorem bytesLess_asymm :
    ∀ (a b : List Nat), bytesLess a b = true → bytesLess b a = false := by
  intro a
  induction a with
  | nil => intro b _; cases b <;> simp [bytesLess]
  | cons x xs ih =>
    intro b h
    cases b with
    | nil => simp [bytesLess] at h
    | cons y ys =>
      simp only [bytesLess] at h ⊢
      split_ifs at h ⊢ <;> first | omega | rfl | exact ih ys h

theorem bytesLess_false_trans :
    ∀ (a b c : List Nat), bytesLess b a = false → bytesLess c b = false →
      bytesLess c a = false := by
  intro a
  induction a with
  | nil => intro b c _ _; cases c <;> simp [bytesLess]
  | cons x xs ih =>
    intro b c hab hbc
    cases b with
    | nil =>
      simp [bytesLess] at hab
    | cons y ys =>
      cases c with
      | nil => simp [bytesLess] at hbc
      | cons z zs =>
        simp only [bytesLess] at hab hbc ⊢
        split_ifs at hab hbc ⊢ <;> first | omega | rfl | exact ih ys zs hab hbc

theorem strLe_of_strLess {a b : String} (h : strLess a b = true) : strLe a b :=
  bytesLess_asymm _ _ h

theorem strLe_trans {a b c : String} (hab : strLe a b) (hbc : strLe b c) : strLe a c :=
  bytesLess_false_trans _ _ _ hab hbc

theorem insertString_perm (x : String) (l : List String) :
    (insertString x l).Perm (x :: l) := by
  induction l with
  | nil => simp [insertString]
  | cons y ys ih =>
    by_cases h : strLess y x = true
    · simp only [insertString, if_pos h]
      exact (List.Perm.cons y ih).trans (List.Perm.swap x y ys)
    · simp only [insertString, if_neg h]
      exact List.Perm.refl _

theorem sortStrings_perm (l : List String) : (sortStrings l).Perm l := by
  induction l with
  | nil => simp [sortStrings]
  | cons x xs ih =>
    simp only [sortStrings]
    exact (insertString_perm x _).trans (List.Perm.cons x ih)

theorem insertString_sorted (x : String) (l : List String) (h : l.Pairwise strLe) :
    (insertString x l).Pairwise strLe := by
  induction l with
  | nil => simp [insertString]
  | cons y ys ih =>
    obtain ⟨hy, hys⟩ := List.pairwise_cons.mp h
    by_cases hlt : strLess y x = true
    · simp only [insertString, if_pos hlt]
      refine List.pairwise_cons.mpr ⟨?_, ih hys⟩
      intro z hz
      rcases (List.mem_cons.mp ((insertString_perm x ys).mem_iff.mp hz)) with rfl | hz
      · exact strLe_of_strLess hlt
      · exact hy z hz
    · simp only [insertString, if_neg hlt]
      have hxy : strLe x y := by
        unfold strLe
        cases hc : strLess y x
        · rfl
        · exact absurd hc hlt
      refine List.pairwise_cons.mpr ⟨?_, h⟩
      intro z hz
      rcases List.mem_cons.mp hz with rfl | hz
      · exact hxy
      · exact strLe_trans hxy (hy z hz)

theorem sortStrings_sorted (l : List String) : (sortStrings l).Pairwise strLe := by
  induction l with
  | nil => simp [sortStrings]
  | cons x xs ih =>
    simp only [sortStrings]
    exact insertString_sorted x _ ih

/-- Invariant of the copy loop of `Sort`: after the indices `0 .. k-1` the buffer holds the
first `k` elements of `operand` in its first `k` places. -/
theorem copy_loop_run (operand : List String) :
    ∀ k : Nat, k ≤ operand.length →
      (List.range k).foldlM
        (fun (sorted : List String) (i : Nat) =>
          match getAt operand (i : Int) with
          | none => none
          | some x => setAt sorted (i : Int) x)
        (List.replicate operand.length "")
      = some (operand.take k ++ List.replicate (operand.length - k) "") := by
  intro k
  induction k with
  | zero => intro _; simp
  | succ k ih =>
    intro hk
    have hlt : k < operand.length := hk
    rw [List.range_succ, List.foldlM_append, ih (Nat.le_of_lt hlt)]
    have hrep : List.replicate (operand.length - k) ""
        = "" :: List.replicate (operand.length - (k + 1)) "" := by
      rw [← List.replicate_succ]
      congr 1
      omega
    have htake : (operand.take k).length = k := by
      rw [List.length_take]; omega
    have hset : setAt (operand.take k ++ List.replicate (operand.length - k) "")
          (k : Int) (operand.get ⟨k, hlt⟩)
        = some (operand.take (k + 1) ++ List.replicate (operand.length - (k + 1)) "") := by
      rw [setAt_nat _ _ _ (by simp; omega), hrep]
      have := set_length_append (operand.take k)
        (List.replicate (operand.length - (k + 1)) "") "" (operand.get ⟨k, hlt⟩)
      rw [htake] at this
      have ht : operand.take (k + 1) = operand.take k ++ [operand.get ⟨k, hlt⟩] := by
        rw [List.take_succ, List.getElem?_eq_getElem hlt]
        rfl
      rw [this, ht, List.append_assoc]
      rfl
    simp only [Option.some_bind, Option.bind_eq_bind, List.foldlM_cons, List.foldlM_nil,
      getAt_nat operand k hlt, hset]
    rfl

/-- `Sort` returns, without a panic, the sorted copy of its operand. -/
theorem SortSlice_eq (operand : List String) :
    SortSlice operand = some (sortStrings operand) := by
  have h := copy_loop_run operand operand.length (le_refl _)
  simp only [Nat.sub_self, List.replicate_zero, List.append_nil, List.take_length] at h
  simp only [SortSlice, makeSlice_length, h]

/-- C8: `Sort(s)` is non-decreasing in the byte-wise lexical order of strings and is a
permutation of `s`: same length, same multiset of elements. -/
theorem SortSlice_sorted_perm (s : List String) :
    ∃ r, SortSlice s = some r ∧ r.Pairwise strLe ∧ r.Perm s ∧ r.length = s.length ∧
      ∀ x, r.count x = s.count x := by
  have hp := sortStrings_perm s
  exact ⟨_, SortSlice_eq s, sortStrings_sorted s, hp, hp.length_eq, fun x => hp.count_eq x⟩

/-! ## Shuffle -/

/-- Invariant of the loop of `Shuffle`: no read leaves `operand`, no write leaves the buffer,
and the written part grows by the elements of `operand` at the drawn indices. -/
theorem shuffleLoop_run (operand : List String) :
    ∀ (ps : List Nat) (buf : List String) (i : Nat),
      (∀ p, p ∈ ps → p < operand.length) → i + ps.length ≤ buf.length →
      ∃ buf1, shuffleLoop ps operand buf i = some buf1 ∧ buf1.length = buf.length ∧
        buf1.take (i + ps.length) = buf.take i ++ ps.map (fun p => operand.getD p "") := by
  intro ps
  induction ps with
  | nil =>
    intro buf i _ _
    exact ⟨buf, by simp [shuffleLoop]⟩
  | cons p rest ih =>
    intro buf i hps hlen
    simp only [List.length_cons] at hlen ⊢
    have hi : i < buf.length := by omega
    have hp : p < operand.length := hps p (List.mem_cons_self p rest)
    obtain ⟨buf1, h1, h2, h3⟩ :=
      ih (buf.set i (operand.get ⟨p, hp⟩)) (i + 1)
        (fun q hq => hps q (List.mem_cons_of_mem p hq))
        (by simp only [List.length_set]; omega)
    have harith : i + 1 + rest.length = i + (rest.length + 1) := by omega
    refine ⟨buf1, ?_, ?_, ?_⟩
    · rw [shuffleLoop, getAt_nat operand p hp]
      simp only
      rw [setAt_nat buf i _ hi]
      simp only
      exact h1
    · rw [h2, List.length_set]
    · rw [← harith, h3, take_succ_set buf i _ hi]
      have hget : operand.getD p "" = operand.get ⟨p, hp⟩ := by
        simp [List.getD_eq_getElem?_getD, List.getElem?_eq_getElem hp]
      simp only [List.map_cons, hget, List.append_assoc, List.singleton_append]

theorem map_getD_range (s : List String) :
    (List.range s.length).map (fun p => s.getD p "") = s := by
  apply List.ext_getElem?
  intro i
  by_cases hi : i < s.length
  · simp [List.getElem?_map, List.getElem?_range hi, List.getD_eq_getElem?_getD,
      List.getElem?_eq_getElem hi]
  · have hge : s.length ≤ i := Nat.le_of_not_lt hi
    rw [List.getElem?_eq_none (by simpa using hge), List.getElem?_eq_none hge]

/-- `Shuffle` returns, without a panic, the elements of its operand at the drawn indices. -/
theorem Shuffle_eq_map (pseudoPerm : Nat → List Nat) (operand : List String)
    (hperm : (pseudoPerm operand.length).Perm (List.range operand.length)) :
    Shuffle pseudoPerm operand
      = some ((pseudoPerm operand.length).map (fun p => operand.getD p "")) := by
  have hlen : (pseudoPerm operand.length).length = operand.length := by
    rw [hperm.length_eq, List.length_range]
  obtain ⟨buf1, h1, h2, h3⟩ :=
    shuffleLoop_run operand (pseudoPerm operand.length) (List.replicate operand.length "") 0
      (fun p hp => List.mem_range.mp (hperm.mem_iff.mp hp))
      (by simp only [List.length_replicate]; omega)
  simp only [Nat.zero_add, List.take_zero, List.nil_append, List.length_replicate] at h1 h2 h3
  have htake : buf1.take operand.length = buf1 := by
    rw [← h2]
    exact List.take_length buf1
  rw [hlen, htake] at h3
  simp only [Shuffle, makeSlice_length, h1, h3]

/-- C11: whatever permutation of the indices `0 .. len-1` the shared generator draws,
`Shuffle(s)` returns a permutation of `s`: same length and same multiset of elements, also
for the empty and the single-element list. -/
theorem Shuffle_is_permutation (pseudoPerm : Nat → List Nat)
    (hperm : ∀ n, (pseudoPerm n).Perm (List.range n)) (s : List String) :
    ∃ r, Shuffle pseudoPerm s = some r ∧ r.Perm s ∧ r.length = s.length ∧
      ∀ x, r.count x = s.count x := by
  have hp : ((pseudoPerm s.length).map (fun p => s.getD p "")).Perm s := by
    have := (hperm s.length).map (fun p => s.getD p "")
    rwa [map_getD_range] at this
  exact ⟨_, Shuffle_eq_map pseudoPerm s (hperm s.length), hp, hp.length_eq,
    fun x => hp.count_eq x⟩

theorem Shuffle_is_permutation_witness :
    (∀ n, ((fun n => (List.range n).reverse) n).Perm (List.range n)) ∧
      ∃ r, Shuffle (fun n => (List.range n).reverse) ["dog", "cat", "horse"] = some r ∧
        r.Perm ["dog", "cat", "horse"] ∧ r.length = ["dog", "cat", "horse"].length ∧
        ∀ x, r.count x = ["dog", "cat", "horse"].count x :=
  ⟨fun n => List.reverse_perm (List.range n),
    Shuffle_is_permutation (fun n => (List.range n).reverse)
      (fun n => List.reverse_perm (List.range n)) ["dog", "cat", "horse"]⟩

/-! ## Head and Tail -/

/-- C12: for `n >= 0`, `Head(n, s)` returns the first `min(n, len(s))` elements of `s` in
their order, and `s` itself whenever `n >= len(s)`. -/
theorem Head_first_elements (n : Int) (s : List String) (hn : 0 ≤ n) :
    Head n s = some (s.take (min n.toNat s.length)) ∧
      ((s.length : Int) ≤ n → Head n s = some s) := by
  have hmain : Head n s = some (s.take (min n.toNat s.length)) := by
    by_cases h : (s.length : Int) < n
    · have hmin : min n.toNat s.length = s.length := by omega
      simp [Head, h, hmin]
    · have hmin : min n.toNat s.length = n.toNat := by omega
      have hle : n ≤ (s.length : Int) := by omega
      simp [Head, h, sliceTo, hn, hle, hmin]
  refine ⟨hmain, fun hle => ?_⟩
  have hmin : min n.toNat s.length = s.length := by omega
  rw [hmain, hmin, List.take_length]

theorem Head_first_elements_witness :
    (0 : Int) ≤ 2 ∧
      (Head 2 ["dog", "cat", "horse"]
          = some (["dog", "cat", "horse"].take (min (2 : Int).toNat ["dog", "cat", "horse"].length)) ∧
        ((["dog", "cat", "horse"].length : Int) ≤ 2 →
          Head 2 ["dog", "cat", "horse"] = some ["dog", "cat", "horse"])) :=
  ⟨by decide, Head_first_elements 2 ["dog", "cat", "horse"] (by decide)⟩

theorem wrapInt_length_sub (s : List String) (n : Int) (hlen : (s.length : Int) ≤ maxInt)
    (h0 : 0 ≤ n) (hle : n ≤ (s.length : Int)) :
    wrapInt ((s.length : Int) - n) = (s.length : Int) - n := by
  apply wrapInt_of_isInt
  unfold IsInt minInt maxInt
  unfold maxInt at hlen
  constructor <;> omega

/-- C13: for `n >= 0`, `Tail(n, s)` returns the last `min(n, len(s))` elements of `s` in
their order, and `s` itself whenever `n >= len(s)`. -/
theorem Tail_last_elements (n : Int) (s : List String) (hn : 0 ≤ n)
    (hlen : (s.length : Int) ≤ maxInt) :
    Tail n s = some (s.drop (s.length - min n.toNat s.length)) ∧
      ((s.length : Int) ≤ n → Tail n s = some s) := by
  have hmain : Tail n s = some (s.drop (s.length - min n.toNat s.length)) := by
    by_cases h : (s.length : Int) < n
    · have hmin : min n.toNat s.length = s.length := by omega
      simp [Tail, h, hmin]
    · have hmin : min n.toNat s.length = n.toNat := by omega
      have hw : wrapInt ((s.length : Int) - n) = (s.length : Int) - n :=
        wrapInt_length_sub s n hlen hn (by omega)
      have h0 : 0 ≤ (s.length : Int) - n := by omega
      have hidx : ((s.length : Int) - n).toNat = s.length - n.toNat := by omega
      simp [Tail, h, hw, sliceFrom, h0, hn, hmin, hidx]
  refine ⟨hmain, fun hle => ?_⟩
  have hmin : min n.toNat s.length = s.length := by omega
  rw [hmain, hmin, Nat.sub_self, List.drop_zero]

theorem Tail_last_elements_witness :
    (0 : Int) ≤ 2 ∧ ((["dog", "cat", "horse"].length : Int) ≤ maxInt) ∧
      (Tail 2 ["dog", "cat", "horse"]
          = some (["dog", "cat", "horse"].drop
              (["dog", "cat", "horse"].length - min (2 : Int).toNat ["dog", "cat", "horse"].length)) ∧
        ((["dog", "cat", "horse"].length : Int) ≤ 2 →
          Tail 2 ["dog", "cat", "horse"] = some ["dog", "cat", "horse"])) :=
  ⟨by decide, by decide, Tail_last_elements 2 ["dog", "cat", "horse"] (by decide) (by decide)⟩

/-- C14, as stated, fails: for the negative count `n = -1` neither `Head` nor `Tail` returns
an empty sequence; `operand[:-1]` and `operand[len(operand)+1:]` are out of range and both
calls panic. -/
theorem Head_Tail_negative_count_panic :
    Head (-1) ["dog"] = none ∧ Tail (-1) ["dog"] = none ∧
      ¬ (Head (-1) ["dog"] = some [] ∧ Tail (-1) ["dog"] = some []) := by
  decide

/-- C14, amended: `Head(0, s)` and `Tail(0, s)` each return an empty sequence; for every
negative `n` both calls panic on their slice expression instead of returning. -/
theorem Head_Tail_nonpositive (n : Int) (s : List String) (hn : IsInt n) (hle : n ≤ 0)
    (hlen : (s.length : Int) ≤ maxInt) :
    (n = 0 → Head n s = some [] ∧ Tail n s = some []) ∧
      (n < 0 → Head n s = none ∧ Tail n s = none) := by
  have hnot : ¬ (s.length : Int) < n := by omega
  constructor
  · rintro rfl
    have hw : wrapInt (s.length : Int) = (s.length : Int) := by
      have := wrapInt_length_sub s 0 hlen (le_refl _) (by omega)
      simpa using this
    simp [Head, Tail, sliceTo, sliceFrom, hw]
  · intro hneg
    have hw : ¬ (0 ≤ wrapInt ((s.length : Int) - n) ∧
        wrapInt ((s.length : Int) - n) ≤ (s.length : Int)) := by
      unfold IsInt minInt maxInt at hn
      unfold maxInt at hlen
      unfold wrapInt
      omega
    have hh : ¬ (0 ≤ n ∧ n ≤ (s.length : Int)) := by omega
    simp only [Head, Tail, if_neg hnot, sliceTo, sliceFrom, if_neg hw, if_neg hh, and_self]

theorem Head_Tail_nonpositive_witness :
    IsInt (-3) ∧ (-3 : Int) ≤ 0 ∧ ((["dog", "cat"].length : Int) ≤ maxInt) ∧
      (((-3 : Int) = 0 → Head (-3) ["dog", "cat"] = some [] ∧ Tail (-3) ["dog", "cat"] = some []) ∧
        ((-3 : Int) < 0 → Head (-3) ["dog", "cat"] = none ∧ Tail (-3) ["dog", "cat"] = none)) :=
  ⟨by decide, by decide, by decide,
    Head_Tail_nonpositive (-3) ["dog", "cat"] (by decide) (by decide) (by decide)⟩

/-! ## Slice -/

/-- C15: for `0 <= first <= last <= len(seq)`, `Slice(first, last, seq)` returns the
half-open sub-range `[first, last)`: `last - first` elements, the `i`-th being
`seq[first + i]`; `Slice(1, 3, [cat,dog,mouse]) = [dog,mouse]`. -/
theorem Slice_sub_range (first last : Int) (seq : StrSlice)
    (h0 : 0 ≤ first) (h1 : first ≤ last) (h2 : last ≤ (seq.len : Int)) :
    (∃ r, Slice first last seq = some r ∧ (r.len : Int) = last - first ∧
      (∀ i : Nat, i < r.len → r.elems[i]? = seq.elems[first.toNat + i]?) ∧
      r.elems = (seq.elems.take last.toNat).drop first.toNat) ∧
    Slice 1 3 ⟨["cat", "dog", "mouse"], []⟩ = some ⟨["dog", "mouse"], []⟩ := by
  refine ⟨?_, by decide⟩
  unfold StrSlice.len at h2
  have hcap : last ≤ (seq.cap : Int) := by
    unfold StrSlice.cap
    push_cast
    omega
  have hlast : last.toNat ≤ seq.elems.length := by omega
  have htake : (seq.elems ++ seq.spare).take last.toNat = seq.elems.take last.toNat :=
    List.take_append_of_le_length hlast
  refine ⟨_, by rw [Slice, if_pos ⟨h0, h1, hcap⟩], ?_, ?_, ?_⟩
  · simp only [StrSlice.len, htake, List.length_drop, List.length_take]
    omega
  · intro i hi
    simp only [StrSlice.len, htake, List.length_drop, List.length_take] at hi
    simp only [htake]
    rw [List.getElem?_drop, List.getElem?_take_of_lt (by omega)]
  · simp only [htake]

theorem Slice_sub_range_witness :
    (0 : Int) ≤ 1 ∧ (1 : Int) ≤ 2 ∧ (2 : Int) ≤ ((StrSlice.mk ["cat", "dog", "mouse"] [""]).len : Int) ∧
      ((∃ r, Slice 1 2 ⟨["cat", "dog", "mouse"], [""]⟩ = some r ∧ (r.len : Int) = 2 - 1 ∧
        (∀ i : Nat, i < r.len →
          r.elems[i]? = (StrSlice.mk ["cat", "dog", "mouse"] [""]).elems[(1 : Int).toNat + i]?) ∧
        r.elems = ((StrSlice.mk ["cat", "dog", "mouse"] [""]).elems.take (2 : Int).toNat).drop
          (1 : Int).toNat) ∧
      Slice 1 3 ⟨["cat", "dog", "mouse"], []⟩ = some ⟨["dog", "mouse"], []⟩) :=
  ⟨by decide, by decide, by decide,
    Slice_sub_range 1 2 ⟨["cat", "dog", "mouse"], [""]⟩ (by decide) (by decide) (by decide)⟩

/-- C16, as stated, fails: a slice of length 1 and capacity 2 (such as the result
`intersection[:1]` of `Intersect([dog,cat], [dog])`) is sliced by `Slice(0, 2, seq)` without
a panic although `last = 2 > len(seq) = 1`; the result shows the spare element. -/
theorem Slice_beyond_len_returns :
    (2 : Int) > ((StrSlice.mk ["dog"] [""]).len : Int) ∧
      Slice 0 2 ⟨["dog"], [""]⟩ = some ⟨["dog", ""], []⟩ ∧
      ¬ (∀ (first last : Int) (seq : StrSlice),
          (first < 0 ∨ last > (seq.len : Int) ∨ first > last) → Slice first last seq = none) := by
  refine ⟨by decide, by decide, fun h => ?_⟩
  have := h 0 2 ⟨["dog"], [""]⟩ (Or.inr (Or.inl (by decide)))
  revert this
  decide

/-- C16, amended: `Slice(first, last, seq)` panics exactly when `first < 0`, or
`last > cap(seq)`, or `first > last`; the upper bound of `operand[first:last]` is the
capacity of the slice, which is its length when the slice has no spare capacity. -/
theorem Slice_panics_iff (first last : Int) (seq : StrSlice) :
    (Slice first last seq = none ↔ (first < 0 ∨ last > (seq.cap : Int) ∨ first > last)) ∧
      (seq.spare = [] → (seq.cap : Int) = (seq.len : Int)) := by
  constructor
  · unfold Slice
    split
    · rename_i h
      simp only [reduceCtorEq, false_iff]
      omega
    · rename_i h
      simp only [true_iff]
      omega
  · intro h
    simp [StrSlice.cap, StrSlice.len, h]

/-! ## Grep -/

theorem grep_foldl_eq_filter (keep : String → Bool) (operand : List String) :
    ∀ matching : List String,
      operand.foldl
        (fun (matching : List String) (elem : String) =>
          if keep elem then matching ++ [elem] else matching)
        matching
      = matching ++ operand.filter keep := by
  induction operand with
  | nil => intro matching; simp
  | cons e rest ih =>
    intro matching
    by_cases h : keep e = true
    · simp [List.foldl_cons, h, ih, List.filter_cons]
    · simp [List.foldl_cons, h, ih, List.filter_cons]

/-- C17: when the pattern compiles, `Grep(pattern, operand)` returns the elements of
`operand` that the compiled expression matches, in their order and multiplicity (the filter
of `operand` by the match predicate) and a nil error; the result is empty when nothing
matches. -/
theorem Grep_is_filter {Regexp Err : Type} (compile : String → Except Err Regexp)
    (matchString : Regexp → String → Bool) (pattern : String) (operand : List String)
    (rex : Regexp) (hcompile : compile pattern = Except.ok rex) :
    Grep compile matchString pattern operand = (operand.filter (matchString rex), none) ∧
      ((∀ x, x ∈ operand → matchString rex x = false) →
        Grep compile matchString pattern operand = ([], none)) := by
  have hmain : Grep compile matchString pattern operand
      = (operand.filter (matchString rex), none) := by
    simp only [Grep, hcompile, grep_foldl_eq_filter, List.nil_append]
  refine ⟨hmain, fun hnone => ?_⟩
  rw [hmain]
  have : operand.filter (matchString rex) = [] := by
    apply List.filter_eq_nil_iff.mpr
    intro x hx
    simp [hnone x hx]
  rw [this]

theorem Grep_is_filter_witness :
    (fun p : String => if p = "[[:bogus:]]" then Except.error "bad" else Except.ok p) "dog"
        = (Except.ok "dog" : Except String String) ∧
      (Grep (fun p : String => if p = "[[:bogus:]]" then Except.error "bad" else Except.ok p)
          (fun (rex : String) (x : String) => decide (rex = x)) "dog" ["dog", "cat"]
        = (["dog", "cat"].filter ((fun (rex : String) (x : String) => decide (rex = x)) "dog"),
            none) ∧
        ((∀ x, x ∈ ["dog", "cat"] →
            (fun (rex : String) (x : String) => decide (rex = x)) "dog" x = false) →
          Grep (fun p : String => if p = "[[:bogus:]]" then Except.error "bad" else Except.ok p)
            (fun (rex : String) (x : String) => decide (rex = x)) "dog" ["dog", "cat"]
          = ([], none))) :=
  ⟨by simp, Grep_is_filter _ _ "dog" ["dog", "cat"] "dog" (by simp)⟩

/-- C18: `Grep(pattern, operand)` returns a non-nil error exactly when the pattern fails to
compile; then the returned slice is nil whatever the operand, and when the pattern compiles
the error is nil even if no element matches. -/
theorem Grep_error_iff {Regexp Err : Type} (compile : String → Except Err Regexp)
    (matchString : Regexp → String → Bool) (pattern : String) (operand : List String) :
    ((Grep compile matchString pattern operand).2 ≠ none ↔
        ∃ err, compile pattern = Except.error err) ∧
      (∀ err, compile pattern = Except.error err →
        Grep compile matchString pattern operand = ([], some err)) ∧
      (∀ rex, compile pattern = Except.ok rex →
        (Grep compile matchString pattern operand).2 = none) := by
  cases hc : compile pattern with
  | error err => simp [Grep, hc]
  | ok rex => simp [Grep, hc]

/-! ## Base64 -/

theorem b64Value_b64Char (v : Nat) (h : v < 64) : b64Value (b64Char v) = some v := by
  unfold b64Char
  split_ifs with h1 h2 h3 h4
  · have : 65 ≤ 65 + v ∧ 65 + v ≤ 90 := by omega
    simp [b64Value, this]
  · have h5 : ¬ (65 ≤ 71 + v ∧ 71 + v ≤ 90) := by omega
    have h6 : 97 ≤ 71 + v ∧ 71 + v ≤ 122 := by omega
    simp [b64Value, h5, h6]
  · have h5 : ¬ (65 ≤ v - 4 ∧ v - 4 ≤ 90) := by omega
    have h6 : ¬ (97 ≤ v - 4 ∧ v - 4 ≤ 122) := by omega
    have h7 : 48 ≤ v - 4 ∧ v - 4 ≤ 57 := by omega
    have h8 : v - 4 + 4 = v := by omega
    simp only [b64Value, if_neg h5, if_neg h6, if_pos h7, h8]
  · subst h4
    decide
  · have : v = 63 := by omega
    subst this
    decide

theorem b64Char_plain (v : Nat) : b64Char v ≠ 61 ∧ b64Char v ≠ 10 ∧ b64Char v ≠ 13 := by
  unfold b64Char
  split_ifs <;> omega

theorem encodeToString_plain :
    ∀ (x : List Nat) (c : Nat), c ∈ encodeToString x → c ≠ 10 ∧ c ≠ 13 := by
  intro x
  induction x using encodeToString.induct with
  | case1 a b c rest ih =>
    intro d hd
    simp only [encodeToString, List.mem_cons] at hd
    rcases hd with rfl | rfl | rfl | rfl | hd
    · exact (b64Char_plain _).2
    · exact (b64Char_plain _).2
    · exact (b64Char_plain _).2
    · exact (b64Char_plain _).2
    · exact ih d hd
  | case2 a b =>
    intro d hd
    simp only [encodeToString, List.mem_cons, List.not_mem_nil, or_false] at hd
    rcases hd with rfl | rfl | rfl | rfl
    · exact (b64Char_plain _).2
    · exact (b64Char_plain _).2
    · exact (b64Char_plain _).2
    · decide
  | case3 a =>
    intro d hd
    simp only [encodeToString, List.mem_cons, List.not_mem_nil, or_false] at hd
    rcases hd with rfl | rfl | rfl | rfl
    · exact (b64Char_plain _).2
    · exact (b64Char_plain _).2
    · decide
    · decide
  | case4 =>
    intro d hd
    simp [encodeToString] at hd

theorem decodeQuanta_encodeToString :
    ∀ (x : List Nat), (∀ b, b ∈ x → b < 256) → decodeQuanta (encodeToString x) = some x := by
  intro x
  induction x using encodeToString.induct with
  | case1 a b c rest ih =>
    intro hx
    have ha : a < 256 := hx a (by simp)
    have hb : b < 256 := hx b (by simp)
    have hc : c < 256 := hx c (by simp)
    have hrest := ih (fun d hd => hx d (by simp [hd]))
    have h3 : b64Char (c % 64) ≠ 61 := (b64Char_plain _).1
    simp only [encodeToString, decodeQuanta,
      b64Value_b64Char (a / 4) (by omega),
      b64Value_b64Char (a % 4 * 16 + b / 16) (by omega),
      b64Value_b64Char (b % 16 * 4 + c / 64) (by omega),
      b64Value_b64Char (c % 64) (by omega), if_neg h3, hrest]
    have e1 : a / 4 * 4 + (a % 4 * 16 + b / 16) / 16 = a := by omega
    have e2 : (a % 4 * 16 + b / 16) % 16 * 16 + (b % 16 * 4 + c / 64) / 4 = b := by omega
    have e3 : (b % 16 * 4 + c / 64) % 4 * 64 + c % 64 = c := by omega
    rw [e1, e2, e3]
  | case2 a b =>
    intro hx
    have ha : a < 256 := hx a (by simp)
    have hb : b < 256 := hx b (by simp)
    have h2 : b64Char (b % 16 * 4) ≠ 61 := (b64Char_plain _).1
    simp only [encodeToString, decodeQuanta,
      b64Value_b64Char (a / 4) (by omega),
      b64Value_b64Char (a % 4 * 16 + b / 16) (by omega),
      b64Value_b64Char (b % 16 * 4) (by omega), if_neg h2]
    have e1 : a / 4 * 4 + (a % 4 * 16 + b / 16) / 16 = a := by omega
    have e2 : (a % 4 * 16 + b / 16) % 16 * 16 + b % 16 * 4 / 4 = b := by omega
    rw [e1, e2]
    simp
  | case3 a =>
    intro hx
    have ha : a < 256 := hx a (by simp)
    simp only [encodeToString, decodeQuanta,
      b64Value_b64Char (a / 4) (by omega),
      b64Value_b64Char (a % 4 * 16) (by omega)]
    have e1 : a / 4 * 4 + a % 4 * 16 / 16 = a := by omega
    rw [e1]
    simp
  | case4 =>
    intro _
    simp [encodeToString, decodeQuanta]

/-- A character that is neither in the alphabet nor the padding makes the decoding of the
quanta fail, wherever it stands. -/
theorem decodeQuanta_illegal (c : Nat) (hval : b64Value c = none) (hpad : c ≠ 61) :
    ∀ (n : Nat) (l : List Nat), l.length ≤ n → c ∈ l → decodeQuanta l = none := by
  intro n
  induction n with
  | zero =>
    intro l hl hc
    have : l = [] := List.length_eq_zero.mp (Nat.le_zero.mp hl)
    subst this
    simp at hc
  | succ n ih =>
    intro l hl hc
    match l, hl, hc with
    | [], _, hc => simp at hc
    | [_], _, _ => simp [decodeQuanta]
    | [_, _], _, _ => simp [decodeQuanta]
    | [_, _, _], _, _ => simp [decodeQuanta]
    | c0 :: c1 :: c2 :: c3 :: rest, hl, hc =>
      simp only [decodeQuanta]
      cases h0 : b64Value c0 with
      | none => simp
      | some v0 =>
        cases h1 : b64Value c1 with
        | none => simp
        | some v1 =>
          simp only
          have hne0 : c ≠ c0 := fun h => by rw [h, h0] at hval; exact Option.noConfusion hval
          have hne1 : c ≠ c1 := fun h => by rw [h, h1] at hval; exact Option.noConfusion hval
          simp only [List.mem_cons, hne0, hne1, false_or] at hc
          by_cases h3 : c3 = 61
          · rw [if_pos h3]
            by_cases hrest : rest = []
            · subst hrest
              have hc2 : c = c2 := by
                rcases hc with h | h | h
                · exact h
                · exact absurd (h.trans h3) hpad
                · simp at h
              subst hc2
              simp [hpad, hval]
            · simp [hrest]
          · rw [if_neg h3]
            rcases hc with h | h | h
            · subst h
              simp [hval]
            · subst h
              simp [hval]
            · have := ih rest (by simp only [List.length_cons] at hl; omega) h
              simp [this]

/-- C19: decoding the encoding gives the bytes back with a nil error, for every byte
sequence `x`, the empty one included; `Base64Encode("test text") = "dGVzdCB0ZXh0"` and
`Base64Decode("dGVzdCB0ZXh0") = "test text"`. -/
theorem Base64Decode_Base64Encode (x : List Nat) (hx : ∀ b, b ∈ x → b < 256) :
    Base64Decode (Base64Encode x) = Except.ok x ∧
      Base64Encode (goBytes "test text") = goBytes "dGVzdCB0ZXh0" ∧
      Base64Decode (goBytes "dGVzdCB0ZXh0") = Except.ok (goBytes "test text") := by
  refine ⟨?_, by decide, by rfl⟩
  have hfilter : (encodeToString x).filter (fun c => c ≠ 10 ∧ c ≠ 13) = encodeToString x := by
    apply List.filter_eq_self.mpr
    intro c hc
    simpa using encodeToString_plain x c hc
  simp only [Base64Decode, Base64Encode, decodeString, hfilter, decodeQuanta_encodeToString x hx]

theorem Base64Decode_Base64Encode_witness :
    (∀ b, b ∈ [0, 255, 16, 10, 200] → b < 256) ∧
      (Base64Decode (Base64Encode [0, 255, 16, 10, 200]) = Except.ok [0, 255, 16, 10, 200] ∧
        Base64Encode (goBytes "test text") = goBytes "dGVzdCB0ZXh0" ∧
        Base64Decode (goBytes "dGVzdCB0ZXh0") = Except.ok (goBytes "test text")) :=
  ⟨by decide, Base64Decode_Base64Encode [0, 255, 16, 10, 200] (by decide)⟩

/-- C20: `Base64Decode` returns a non-nil error for every string that holds a character
outside the standard alphabet, the padding `=` and the line breaks, such as
`"not-valid-base64!!"`; `Base64Encode` has no error result and returns a string for every
input. -/
theorem Base64Decode_illegal_character (s : List Nat) (c : Nat) (hc : c ∈ s)
    (hval : b64Value c = none) (hpad : c ≠ 61) (hlf : c ≠ 10) (hcr : c ≠ 13) :
    Base64Decode s = Except.error "illegal base64 data" ∧
      Base64Decode (goBytes "not-valid-base64!!") = Except.error "illegal base64 data" ∧
      ∃ r, Base64Encode s = r := by
  refine ⟨?_, by rfl, ⟨_, rfl⟩⟩
  have hmem : c ∈ s.filter (fun c => c ≠ 10 ∧ c ≠ 13) := by
    apply List.mem_filter.mpr
    exact ⟨hc, by simp [hlf, hcr]⟩
  have := decodeQuanta_illegal c hval hpad _ _ (le_refl _) hmem
  simp only [Base64Decode, decodeString, this]

theorem Base64Decode_illegal_character_witness :
    (33 ∈ [81, 33, 61, 61]) ∧ b64Value 33 = none ∧ (33 : Nat) ≠ 61 ∧ (33 : Nat) ≠ 10 ∧
      (33 : Nat) ≠ 13 ∧
      (Base64Decode [81, 33, 61, 61] = Except.error "illegal base64 data" ∧
        Base64Decode (goBytes "not-valid-base64!!") = Except.error "illegal base64 data" ∧
        ∃ r, Base64Encode [81, 33, 61, 61] = r) :=
  ⟨by decide, by decide, by decide, by decide, by decide,
    Base64Decode_illegal_character [81, 33, 61, 61] 33 (by decide) (by decide) (by decide)
      (by decide) (by decide)⟩

/-! ## Arithmetic -/

theorem natAbs_tmod_eq (a b : Int) : (Int.tmod a b).natAbs = a.natAbs % b.natAbs := by
  cases a <;> cases b <;> simp [Int.tmod, Int.natAbs_neg] <;> rfl

theorem tmod_nonpos_of_nonpos (a b : Int) (h : a ≤ 0) : Int.tmod a b ≤ 0 := by
  cases a with
  | ofNat m =>
    have hm : m = 0 := by
      have : (m : Int) ≤ 0 := h
      omega
    subst hm
    simp
  | negSucc m =>
    cases b <;> exact Int.neg_nonpos_of_nonneg (Int.ofNat_nonneg _)

/-- The truncated quotient of two ints is an int, the quotient of the smallest int by `-1`
apart. -/
theorem tdiv_isInt (a operand : Int) (ha : a ≠ 0) (hop : IsInt operand)
    (hov : ¬ (operand = minInt ∧ a = -1)) : IsInt (Int.tdiv operand a) := by
  unfold IsInt minInt maxInt at *
  by_cases h2 : 2 ≤ a.natAbs
  · have hq : (Int.tdiv operand a).natAbs ≤ operand.natAbs / 2 := by
      rw [Int.natAbs_tdiv]
      exact Nat.div_le_div_left h2 (by decide)
    omega
  · have h1 : a = 1 ∨ a = -1 := by omega
    rcases h1 with rfl | rfl
    · rw [Int.tdiv_one]
      exact hop
    · have hq : Int.tdiv operand (-1) = -operand := by
        rw [Int.tdiv_neg, Int.tdiv_one]
      rw [hq]
      omega

/-- The truncated remainder by a non-zero int is an int. -/
theorem tmod_isInt (a operand : Int) (ha : a ≠ 0) (hia : IsInt a) :
    IsInt (Int.tmod operand a) := by
  have hr := natAbs_tmod_eq operand a
  have hlt : operand.natAbs % a.natAbs < a.natAbs := Nat.mod_lt _ (by omega)
  unfold IsInt minInt maxInt at *
  omega

/-- C23, as stated, fails at one pair of ints: the quotient of the smallest int by `-1`,
truncated toward zero, is `2^63`, which is no int; `Divide` wraps around and returns the
smallest int itself, so that `Divide * a + Modulo` is not the operand. -/
theorem Divide_minInt_by_minus_one :
    Divide (-1) minInt = Run.done minInt ∧ Modulo (-1) minInt = Run.done 0 ∧
      Int.tdiv minInt (-1) = 9223372036854775808 ∧ minInt * (-1) + 0 ≠ minInt := by
  decide

/-- C23, amended: for every int `operand` and every non-zero int `a`, the pair
`operand = MinInt64`, `a = -1` apart, `Divide(a, operand)` is the quotient truncated toward
zero and `Modulo(a, operand)` the matching remainder: `Divide * a + Modulo = operand`,
`|Modulo| < |a|`, and a non-zero `Modulo` has the sign of `operand`;
`Divide(2, 42) = 21` and `Modulo(10, 42) = 2`. -/
theorem Divide_Modulo_truncated (a operand : Int) (ha : IsInt a) (hop : IsInt operand)
    (hne : a ≠ 0) (hov : ¬ (operand = minInt ∧ a = -1)) :
    (∃ q r, Divide a operand = Run.done q ∧ Modulo a operand = Run.done r ∧
      q = Int.tdiv operand a ∧ q.natAbs = operand.natAbs / a.natAbs ∧
      q * a + r = operand ∧ |r| < |a| ∧ (r ≠ 0 → (0 < r ↔ 0 < operand))) ∧
    Divide 2 42 = Run.done 21 ∧ Modulo 10 42 = Run.done 2 := by
  refine ⟨⟨Int.tdiv operand a, Int.tmod operand a, ?_, ?_, rfl, ?_, ?_, ?_, ?_⟩,
    by decide, by decide⟩
  · simp [Divide, hne, wrapInt_of_isInt (tdiv_isInt a operand hne hop hov)]
  · simp [Modulo, hne, wrapInt_of_isInt (tmod_isInt a operand hne ha)]
  · rw [Int.natAbs_tdiv]
    rfl
  · exact Int.tdiv_add_tmod' operand a
  · have hr := natAbs_tmod_eq operand a
    have hlt : operand.natAbs % a.natAbs < a.natAbs := Nat.mod_lt _ (by omega)
    rw [Int.abs_eq_natAbs, Int.abs_eq_natAbs]
    omega
  · intro hr0
    constructor
    · intro hpos
      by_contra hcon
      have := tmod_nonpos_of_nonpos operand a (by omega)
      omega
    · intro hpos
      have := Int.tmod_nonneg a (le_of_lt hpos)
      omega

theorem Divide_Modulo_truncated_witness :
    IsInt 2 ∧ IsInt (-7) ∧ (2 : Int) ≠ 0 ∧ ¬ ((-7 : Int) = minInt ∧ (2 : Int) = -1) ∧
      ((∃ q r, Divide 2 (-7) = Run.done q ∧ Modulo 2 (-7) = Run.done r ∧
        q = Int.tdiv (-7) 2 ∧ q.natAbs = (-7 : Int).natAbs / (2 : Int).natAbs ∧
        q * 2 + r = -7 ∧ |r| < |(2 : Int)| ∧ (r ≠ 0 → (0 < r ↔ 0 < (-7 : Int)))) ∧
      Divide 2 42 = Run.done 21 ∧ Modulo 10 42 = Run.done 2) :=
  ⟨by decide, by decide, by decide, by decide,
    Divide_Modulo_truncated 2 (-7) (by decide) (by decide) (by decide) (by decide)⟩

/-- C24: `Divide` and `Modulo` panic exactly for the divisor zero; for every other divisor
they return a value. -/
theorem Divide_Modulo_panic_iff (a operand : Int) :
    ((∃ msg, Divide a operand = Run.panicked msg) ↔ a = 0) ∧
      ((∃ msg, Modulo a operand = Run.panicked msg) ↔ a = 0) ∧
      (a ≠ 0 → ∃ q r, Divide a operand = Run.done q ∧ Modulo a operand = Run.done r) ∧
      Divide 0 operand = Run.panicked "runtime error: integer divide by zero" ∧
      Modulo 0 operand = Run.panicked "runtime error: integer divide by zero" := by
  by_cases h : a = 0
  · subst h
    simp [Divide, Modulo]
  · simp [Divide, Modulo, h]

/-- C25, as stated, fails at the smallest int: its absolute value `2^63` is no int,
`operand * -1` wraps around, and `Abs` returns the smallest int itself, which is negative. -/
theorem Abs_minInt_negative :
    Abs minInt = minInt ∧ Abs minInt < 0 ∧ Abs minInt ≠ -minInt := by
  decide

/-- C25, amended: for every int `operand` other than the smallest one, `Abs(operand)` is
non-negative, equals `operand` when `operand >= 0` and `-operand` when `operand < 0`. -/
theorem Abs_absolute_value (operand : Int) (hop : IsInt operand) (hne : operand ≠ minInt) :
    0 ≤ Abs operand ∧ (0 ≤ operand → Abs operand = operand) ∧
      (operand < 0 → Abs operand = -operand) ∧ Abs operand = |operand| := by
  have hw : wrapInt (operand * (-1)) = -operand := by
    have : IsInt (operand * (-1)) := by
      unfold IsInt minInt maxInt at *
      omega
    rw [wrapInt_of_isInt this]
    ring
  by_cases h : operand < 0
  · have habs : |operand| = -operand := abs_of_neg h
    have hA : Abs operand = -operand := by simp only [Abs, if_pos h, hw]
    rw [hA, habs]
    exact ⟨by omega, fun h0 => by omega, fun _ => rfl, rfl⟩
  · have habs : |operand| = operand := abs_of_nonneg (by omega)
    have hA : Abs operand = operand := by simp only [Abs, if_neg h]
    rw [hA, habs]
    exact ⟨by omega, fun _ => rfl, fun h0 => absurd h0 h, rfl⟩

theorem Abs_absolute_value_witness :
    IsInt (-10) ∧ (-10 : Int) ≠ minInt ∧
      (0 ≤ Abs (-10) ∧ (0 ≤ (-10 : Int) → Abs (-10) = -10) ∧
        ((-10 : Int) < 0 → Abs (-10) = -(-10)) ∧ Abs (-10) = |(-10 : Int)|) :=
  ⟨by decide, by decide, Abs_absolute_value (-10) (by decide) (by decide)⟩

/-- C26: `Min(a, operand)` is the smaller and `Max(a, operand)` the larger of the two
arguments, each is one of them, and neither depends on the order of the arguments. -/
theorem Min_Max_bounds (a operand : Int) :
    Min a operand ≤ a ∧ Min a operand ≤ operand ∧
      (Min a operand = a ∨ Min a operand = operand) ∧
      Max a operand ≥ a ∧ Max a operand ≥ operand ∧
      (Max a operand = a ∨ Max a operand = operand) ∧
      Min a operand = Min operand a ∧ Max a operand = Max operand a := by
  unfold Min Max
  refine ⟨?_, ?_, ?_, ?_, ?_, ?_, ?_, ?_⟩ <;> split_ifs <;> omega

/-- C27: the operand is the last parameter of the arithmetic operations: for all ints `a`
and `operand`, `Subtract(a, operand)` is `operand - a` (not `a - operand`),
`Add(a, operand)` is `operand + a` and `Multiply(a, operand)` is `operand * a` in the
arithmetic of Go's `int`, and each of the three is the exact difference, sum or product
whenever that one is an int; `Subtract(10, 42) = 32`. -/
theorem arithmetic_operand_last (a operand : Int) :
    Subtract a operand = wrapInt (operand - a) ∧
      Add a operand = wrapInt (operand + a) ∧
      Multiply a operand = wrapInt (operand * a) ∧
      (IsInt (operand - a) → Subtract a operand = operand - a) ∧
      (IsInt (operand - a) → a ≠ operand → Subtract a operand ≠ a - operand) ∧
      (IsInt (operand + a) → Add a operand = operand + a) ∧
      (IsInt (operand * a) → Multiply a operand = operand * a) ∧
      Subtract 10 42 = 32 ∧ Subtract 10 42 ≠ 10 - 42 := by
  refine ⟨rfl, rfl, rfl, fun hsub => wrapInt_of_isInt hsub, ?_,
    fun hadd => wrapInt_of_isInt hadd, fun hmul => wrapInt_of_isInt hmul,
    by decide, by decide⟩
  intro hsub hne heq
  have h1 : Subtract a operand = operand - a := wrapInt_of_isInt hsub
  rw [h1] at heq
  exact hne (by omega)

/-! ## Split and Join -/

theorem startsWith_eq_append :
    ∀ (s sep : List Nat), startsWith s sep = true → s = sep ++ s.drop sep.length := by
  intro s
  induction s with
  | nil =>
    intro sep h
    cases sep with
    | nil => rfl
    | cons d sep => simp [startsWith] at h
  | cons c s ih =>
    intro sep h
    cases sep with
    | nil => rfl
    | cons d sep =>
      simp only [startsWith, Bool.and_eq_true, decide_eq_true_eq] at h
      obtain ⟨hcd, hrest⟩ := h
      subst hcd
      have := ih sep hrest
      simp only [List.length_cons, List.drop_succ_cons, List.cons_append]
      rw [← this]

theorem splitLoop_ne_nil (sep : List Nat) :
    ∀ (s : List Nat) (skip : Nat) (piece : List Nat), splitLoop sep s skip piece ≠ [] := by
  intro s
  induction s with
  | nil => intro skip piece; simp [splitLoop]
  | cons c rest ih =>
    intro skip piece
    cases skip with
    | succ k => simp only [splitLoop]; exact ih k piece
    | zero =>
      simp only [splitLoop]
      split
      · simp
      · exact ih 0 _

theorem stringsJoin_cons (x : List Nat) (l : List (List Nat)) (sep : List Nat) (h : l ≠ []) :
    stringsJoin (x :: l) sep = x ++ sep ++ stringsJoin l sep := by
  cases l with
  | nil => exact absurd rfl h
  | cons y rest => rfl

/-- Joining the pieces of the scan gives back the bytes that the scan has read: the piece in
hand and the input after the bytes still to be passed over. -/
theorem stringsJoin_splitLoop (sep : List Nat) (hsep : sep ≠ []) :
    ∀ (s : List Nat) (skip : Nat) (piece : List Nat),
      stringsJoin (splitLoop sep s skip piece) sep = piece ++ s.drop skip := by
  intro s
  induction s with
  | nil => intro skip piece; simp [splitLoop, stringsJoin]
  | cons c rest ih =>
    intro skip piece
    cases skip with
    | succ k =>
      simp only [splitLoop, List.drop_succ_cons]
      exact ih k piece
    | zero =>
      simp only [splitLoop, List.drop_zero]
      by_cases hs : startsWith (c :: rest) sep = true
      · rw [if_pos hs, stringsJoin_cons _ _ _ (splitLoop_ne_nil sep _ _ _), ih]
        have hlen : 0 < sep.length := List.length_pos.mpr hsep
        have hdrop : rest.drop (sep.length - 1) = (c :: rest).drop sep.length := by
          obtain ⟨k, hk⟩ := Nat.exists_eq_succ_of_ne_zero (Nat.pos_iff_ne_zero.mp hlen)
          rw [hk]
          rfl
        have := startsWith_eq_append (c :: rest) sep hs
        rw [List.nil_append, hdrop, List.append_assoc, ← this]
      · rw [if_neg hs, ih]
        simp

/-- C21: for every non-empty separator, joining the pieces of a split with the separator
gives the string back: `Join(sep, Split(sep, x)) = x`; `Split(",", "a,b,c") = [a,b,c]` and
`Join("-", [a,b,c]) = "a-b-c"`. -/
theorem Join_Split (sep x : List Nat) (hsep : sep ≠ []) :
    Join sep (Split sep x) = x ∧
      Split (goBytes ",") (goBytes "a,b,c") = [goBytes "a", goBytes "b", goBytes "c"] ∧
      Join (goBytes "-") [goBytes "a", goBytes "b", goBytes "c"] = goBytes "a-b-c" := by
  refine ⟨?_, by decide, by decide⟩
  simp only [Join, Split, stringsSplit, if_neg hsep, stringsJoin_splitLoop sep hsep,
    List.drop_zero, List.nil_append]

theorem Join_Split_witness :
    [44, 32] ≠ ([] : List Nat) ∧
      (Join [44, 32] (Split [44, 32] [97, 44, 32, 98, 44, 44, 32]) = [97, 44, 32, 98, 44, 44, 32] ∧
        Split (goBytes ",") (goBytes "a,b,c") = [goBytes "a", goBytes "b", goBytes "c"] ∧
        Join (goBytes "-") [goBytes "a", goBytes "b", goBytes "c"] = goBytes "a-b-c") :=
  ⟨by decide, Join_Split [44, 32] [97, 44, 32, 98, 44, 44, 32] (by decide)⟩

/-! ## Lines -/

theorem splitNewline_ne_nil : ∀ s : List Nat, splitNewline s ≠ [] := by
  intro s
  cases s with
  | nil => simp [splitNewline]
  | cons c rest =>
    simp only [splitNewline]
    split
    · simp
    · split <;> simp

theorem prependFirst_nil (ps : List (List Nat)) (h : ps ≠ []) : prependFirst [] ps = ps := by
  cases ps with
  | nil => exact absurd rfl h
  | cons p ps => simp [prependFirst]

theorem prependFirst_splitNewline_cons (token : List Nat) (c : Nat) (rest : List Nat) :
    prependFirst token (splitNewline (c :: rest))
      = if c = 10 then token :: splitNewline rest
        else prependFirst (token ++ [c]) (splitNewline rest) := by
  by_cases hc : c = 10
  · simp [splitNewline, hc, prependFirst]
  · cases hsp : splitNewline rest with
    | nil => exact absurd hsp (splitNewline_ne_nil rest)
    | cons q qs => simp [splitNewline, hc, hsp, prependFirst]

theorem lineEntries_cons (p : List Nat) (ps : List (List Nat)) (h : ps ≠ []) :
    lineEntries (p :: ps) = dropCR p :: lineEntries ps := by
  cases ps with
  | nil => exact absurd rfl h
  | cons q qs =>
    simp only [lineEntries, List.getLast?_cons_cons, List.dropLast_cons₂]
    split <;> simp

theorem lineEntries_singleton (token : List Nat) :
    lineEntries [token] = if token = [] then [] else [dropCR token] := by
  by_cases h : token = []
  · subst h
    simp [lineEntries]
  · simp [lineEntries, h]

/-- The scan over lines that all fit the buffer: no error, and the entries are those of the
pieces of the input, the first piece completed by the bytes of the line being read. -/
theorem scanLoop_short :
    ∀ (rest token : List Nat) (lines : List (List Nat)),
      (∀ p, p ∈ prependFirst token (splitNewline rest) → p.length < maxScanTokenSize) →
      scanLoop rest token lines
        = (lines ++ lineEntries (prependFirst token (splitNewline rest)), none) := by
  intro rest
  induction rest with
  | nil =>
    intro token lines _
    simp only [scanLoop, splitNewline, prependFirst, List.append_nil, lineEntries_singleton]
    split <;> simp
  | cons c rest ih =>
    intro token lines hshort
    rw [prependFirst_splitNewline_cons] at hshort ⊢
    by_cases hc : c = 10
    · simp only [if_pos hc] at hshort ⊢
      have hrest := ih [] (lines ++ [dropCR token]) (by
        intro p hp
        rw [prependFirst_nil _ (splitNewline_ne_nil rest)] at hp
        exact hshort p (List.mem_cons_of_mem _ hp))
      rw [prependFirst_nil _ (splitNewline_ne_nil rest)] at hrest
      rw [scanLoop, if_pos hc, hrest, lineEntries_cons _ _ (splitNewline_ne_nil rest)]
      simp
    · simp only [if_neg hc] at hshort ⊢
      have hfit : ¬ maxScanTokenSize ≤ token.length + 1 := by
        cases hsp : splitNewline rest with
        | nil => exact absurd hsp (splitNewline_ne_nil rest)
        | cons q qs =>
          have := hshort (token ++ [c] ++ q) (by simp [hsp, prependFirst])
          simp only [List.length_append, List.length_singleton] at this
          omega
      rw [scanLoop, if_neg hc, if_neg hfit]
      exact ih (token ++ [c]) lines hshort

/-- The scan over an input with a line that does not fit the buffer stops with the error
`ErrTooLong`. -/
theorem scanLoop_long :
    ∀ (rest token : List Nat) (lines : List (List Nat)),
      token.length < maxScanTokenSize →
      (∃ p, p ∈ prependFirst token (splitNewline rest) ∧ maxScanTokenSize ≤ p.length) →
      (scanLoop rest token lines).2 = some "bufio.Scanner: token too long" := by
  intro rest
  induction rest with
  | nil =>
    intro token lines htok hlong
    obtain ⟨p, hp, hlen⟩ := hlong
    simp only [splitNewline, prependFirst, List.append_nil, List.mem_singleton] at hp
    subst hp
    omega
  | cons c rest ih =>
    intro token lines htok hlong
    rw [prependFirst_splitNewline_cons] at hlong
    by_cases hc : c = 10
    · simp only [if_pos hc] at hlong
      obtain ⟨p, hp, hlen⟩ := hlong
      rcases List.mem_cons.mp hp with rfl | hp
      · omega
      · rw [scanLoop, if_pos hc]
        apply ih [] _ (by decide)
        exact ⟨p, by rw [prependFirst_nil _ (splitNewline_ne_nil rest)]; exact hp, hlen⟩
    · simp only [if_neg hc] at hlong
      rw [scanLoop, if_neg hc]
      by_cases hfit : maxScanTokenSize ≤ token.length + 1
      · rw [if_pos hfit]
      · rw [if_neg hfit]
        apply ih (token ++ [c]) lines _ hlong
        simp only [List.length_append, List.length_singleton]
        omega

theorem splitNewline_replicate (n c : Nat) (hc : c ≠ 10) :
    splitNewline (List.replicate n c) = [List.replicate n c] := by
  induction n with
  | zero => rfl
  | succ n ih => simp [List.replicate_succ, splitNewline, hc, ih]

/-- A line that does not fit the buffer makes `Lines` return a non-nil error. -/
theorem Lines_long_line (operand : List Nat)
    (hlong : ∃ p, p ∈ splitNewline operand ∧ maxScanTokenSize ≤ p.length) :
    (Lines operand).2 = some "bufio.Scanner: token too long" := by
  apply scanLoop_long operand [] [] (by decide)
  rw [prependFirst_nil _ (splitNewline_ne_nil operand)]
  exact hlong

/-- C22, as stated, fails for a long line: on a single line of 70000 bytes `a` the scanner
runs out of buffer and `Lines` returns the error `ErrTooLong` and no entry. -/
theorem Lines_fails_on_long_line :
    Lines (List.replicate 70000 97) = ([], some "bufio.Scanner: token too long") ∧
      (Lines (List.replicate 70000 97)).2 ≠ none := by
  have herr : (Lines (List.replicate 70000 97)).2 = some "bufio.Scanner: token too long" := by
    apply Lines_long_line
    refine ⟨List.replicate 70000 97, ?_, ?_⟩
    · rw [splitNewline_replicate 70000 97 (by decide)]
      exact List.mem_singleton.mpr rfl
    · rw [List.length_replicate]
      decide
  have hlines : ∀ (rest token : List Nat),
      (scanLoop rest token []).2 ≠ none → (∀ c, c ∈ rest → c ≠ 10) →
      (scanLoop rest token []).1 = [] := by
    intro rest
    induction rest with
    | nil =>
      intro token h _
      simp only [scanLoop] at h
      split at h <;> simp at h
    | cons c rest ih =>
      intro token h hno
      have hc : c ≠ 10 := hno c (List.mem_cons_self c rest)
      rw [scanLoop, if_neg hc] at h ⊢
      by_cases hfit : maxScanTokenSize ≤ token.length + 1
      · rw [if_pos hfit]
      · rw [if_neg hfit] at h ⊢
        exact ih _ h (fun d hd => hno d (List.mem_cons_of_mem c hd))
  have hne : (Lines (List.replicate 70000 97)).2 ≠ none := by
    rw [herr]
    exact Option.some_ne_none _
  have hfst : (Lines (List.replicate 70000 97)).1 = [] :=
    hlines _ [] hne (fun c hc => by
      rw [List.eq_of_mem_replicate hc]
      decide)
  exact ⟨Prod.ext hfst herr, hne⟩

/-- C22, amended: for every operand whose lines (the pieces between line feeds) are all
shorter than 65536 bytes, `Lines(operand)` succeeds with a nil error and returns the pieces
of the operand cut at each line feed, each with one trailing carriage return stripped,
empty lines kept, without a final empty entry when the operand is empty or ends with a line
feed. -/
theorem Lines_of_short_lines (operand : List Nat)
    (hshort : ∀ p, p ∈ splitNewline operand → p.length < maxScanTokenSize) :
    Lines operand = (linesSpec operand, none) ∧
      Lines (goBytes "a\nb\nc\n") = ([goBytes "a", goBytes "b", goBytes "c"], none) ∧
      Lines (goBytes "empty\n\nlines") = ([goBytes "empty", [], goBytes "lines"], none) ∧
      Lines (goBytes "windows\r\nlines") = ([goBytes "windows", goBytes "lines"], none) := by
  refine ⟨?_, by decide, by decide, by decide⟩
  have h := scanLoop_short operand [] [] (by
    rw [prependFirst_nil _ (splitNewline_ne_nil operand)]
    exact hshort)
  rw [prependFirst_nil _ (splitNewline_ne_nil operand)] at h
  simpa [Lines, linesSpec] using h

theorem Lines_of_short_lines_witness :
    (∀ p, p ∈ splitNewline (goBytes "x\r\n\ny") → p.length < maxScanTokenSize) ∧
      (Lines (goBytes "x\r\n\ny") = (linesSpec (goBytes "x\r\n\ny"), none) ∧
        Lines (goBytes "a\nb\nc\n") = ([goBytes "a", goBytes "b", goBytes "c"], none) ∧
        Lines (goBytes "empty\n\nlines") = ([goBytes "empty", [], goBytes "lines"], none) ∧
        Lines (goBytes "windows\r\nlines") = ([goBytes "windows", goBytes "lines"], none)) :=
  ⟨by decide, Lines_of_short_lines (goBytes "x\r\n\ny") (by decide)⟩

/-! ## Repeat -/

theorem take_flatten_replicate (s : List Nat) :
    ∀ k m : Nat, ((List.replicate (k + m) s).flatten).take (s.length * k)
      = (List.replicate k s).flatten := by
  intro k
  induction k with
  | zero => intro m; simp
  | succ k ih =>
    intro m
    have hkm : k + 1 + m = (k + m) + 1 := by omega
    rw [hkm, List.replicate_succ, List.replicate_succ, List.flatten_cons, List.flatten_cons,
      Nat.mul_succ, Nat.add_comm (s.length * k) s.length, List.take_append, ih]

/-- C28, as stated, fails for a negative count: `Repeat(-1, "duck")` asks `make` for a
slice of length `-4` and panics instead of returning a string. -/
theorem Repeat_negative_count_panics :
    Repeat (-1) (goBytes "duck") = Run.panicked "runtime error: makeslice: len out of range" := by
  decide

/-- C28, amended: when `len(operand) * count` is an int, `Repeat(count, operand)` returns
`operand` concatenated `count` times for `count >= 0` and panics for a negative `count` and
a non-empty `operand`; `Repeat(2, "duck") = "duckduck"`. -/
theorem Repeat_copies (count : Int) (operand : List Nat)
    (hprod : IsInt ((operand.length : Int) * count)) :
    (0 ≤ count → Repeat count operand = Run.done (List.replicate count.toNat operand).flatten) ∧
      (count < 0 → operand ≠ [] → ∃ msg, Repeat count operand = Run.panicked msg) ∧
      Repeat 2 (goBytes "duck") = Run.done (goBytes "duckduck") := by
  have hw := wrapInt_of_isInt hprod
  refine ⟨fun h0 => ?_, fun hneg hne => ?_, by decide⟩
  · obtain ⟨k, rfl⟩ := Int.eq_ofNat_of_zero_le h0
    have hnn : ¬ ((operand.length : Int) * (k : Int) < 0) := by
      have : (0 : Int) ≤ (operand.length : Int) * (k : Int) :=
        Int.mul_nonneg (Int.ofNat_nonneg _) (Int.ofNat_nonneg _)
      omega
    have hnat : ((operand.length : Int) * (k : Int)).toNat = operand.length * k := by
      have : (operand.length : Int) * (k : Int) = ((operand.length * k : Nat) : Int) := by
        push_cast
        rfl
      rw [this, Int.toNat_ofNat]
    simp only [Repeat, stringsRepeat, hw, if_neg hnn, hnat, Int.toNat_ofNat]
    apply congrArg Run.done
    by_cases hlen : operand.length = 0
    · have hnil : operand = [] := List.length_eq_zero.mp hlen
      subst hnil
      have hflat : ∀ n : Nat, (List.replicate n ([] : List Nat)).flatten = [] := by
        intro n
        induction n with
        | zero => rfl
        | succ n ih => rw [List.replicate_succ, List.flatten_cons, ih]; rfl
      simp [hflat]
    · have hle : k ≤ operand.length * k := Nat.le_mul_of_pos_left k (Nat.pos_of_ne_zero hlen)
      have hsplit : operand.length * k = k + (operand.length * k - k) := by omega
      have := take_flatten_replicate operand k (operand.length * k - k)
      rw [← hsplit] at this
      exact this
  · have hpos : 0 < (operand.length : Int) := by
      have := List.length_pos.mpr hne
      omega
    have hlt : (operand.length : Int) * count < 0 := mul_neg_of_pos_of_neg hpos hneg
    refine ⟨"runtime error: makeslice: len out of range", ?_⟩
    simp only [Repeat, stringsRepeat, hw, if_pos hlt]

theorem Repeat_copies_witness :
    IsInt (((goBytes "ab").length : Int) * 3) ∧
      (((0 : Int) ≤ 3 →
          Repeat 3 (goBytes "ab") = Run.done (List.replicate (3 : Int).toNat (goBytes "ab")).flatten) ∧
        ((3 : Int) < 0 → goBytes "ab" ≠ [] → ∃ msg, Repeat 3 (goBytes "ab") = Run.panicked msg) ∧
        Repeat 2 (goBytes "duck") = Run.done (goBytes "duckduck")) :=
  ⟨by decide, Repeat_copies 3 (goBytes "ab") (by decide)⟩

/-! ## Intersect and the order of its operand -/

theorem firstOccurrences_filter (q : String → Bool) :
    ∀ l : List String, firstOccurrences (l.filter q) = (firstOccurrences l).filter q := by
  intro l
  induction l with
  | nil => rfl
  | cons x xs ih =>
    cases hq : q x with
    | true =>
      simp only [List.filter_cons, hq, if_true, firstOccurrences, ih, List.filter_filter]
      congr 1
      apply List.filter_congr
      intro y _
      exact Bool.and_comm _ _
    | false =>
      simp only [List.filter_cons, hq, firstOccurrences, ih, List.filter_filter,
        Bool.false_eq_true, if_false]
      apply List.filter_congr
      intro y _
      by_cases hy : y = x
      · subst hy
        simp [hq]
      · simp [hy]

/-- The strings written by the loop of `Intersect` are the first occurrences of the
elements of the operand that occur in `a` and have not been visited before. -/
theorem intersectWrites_eq_firstOccurrences (a : List String) :
    ∀ (rest seen : List String),
      intersectWrites a seen rest
        = firstOccurrences (rest.filter (fun x => decide (x ∈ a ∧ x ∉ seen))) := by
  intro rest
  induction rest with
  | nil => intro seen; rfl
  | cons e rest ih =>
    intro seen
    have hstep : ∀ keep : Bool, (keep = true ↔ (e ∈ a ∧ e ∉ seen)) →
        firstOccurrences (rest.filter (fun x => decide (x ∈ a ∧ x ∉ e :: seen)))
          = (firstOccurrences (rest.filter (fun x => decide (x ∈ a ∧ x ∉ seen)))).filter
              (fun y => y ≠ e) := by
      intro _ _
      rw [← firstOccurrences_filter, List.filter_filter]
      congr 1
      apply List.filter_congr
      intro y _
      by_cases hy : y = e <;> simp [hy]
    by_cases h : e ∈ a ∧ e ∉ seen
    · simp only [intersectWrites, if_pos h, ih, List.filter_cons, decide_eq_true h, if_true,
        firstOccurrences]
      rw [hstep true (by simp [h])]
    · simp only [intersectWrites, if_neg h, ih, List.filter_cons, decide_eq_false h]
      congr 1
      apply List.filter_congr
      intro y _
      by_cases hy : y = e
      · subst hy
        simp [h]
      · simp [hy]

/-- C30: `Intersect(a, operand)` is the list obtained from `operand` by keeping the elements
that occur in `a` and then only the first occurrence of each distinct element, in the order
of `operand`; `Intersect([horse,dog], [dog,dog,cat,horse]) = [dog,horse]`. -/
theorem Intersect_keeps_operand_order (a operand : List String) :
    Intersect a operand = some (firstOccurrences (operand.filter (fun x => decide (x ∈ a)))) ∧
      Intersect ["horse", "dog"] ["dog", "dog", "cat", "horse"] = some ["dog", "horse"] := by
  refine ⟨?_, by decide⟩
  rw [Intersect_eq_writes, intersectWrites_eq_firstOccurrences]
  simp

/-! ## Intersect stays inside its buffer -/

/-- The writes of the loop of `Intersect` go to consecutive indices, starting at the value
of the counter, one for each string of `intersectWrites`. -/
theorem intersectIndices_eq_range (a : List String) (uniqA : List (String × Bool))
    (hA : ∀ x, mapGet uniqA x = true ↔ x ∈ a) :
    ∀ (rest seen : List String) (uniqOp : List (String × Bool)) (i : Nat),
      (∀ x, mapGet uniqOp x = true ↔ x ∈ seen) →
      intersectIndices rest uniqA uniqOp i
        = List.range' i (intersectWrites a seen rest).length := by
  intro rest
  induction rest with
  | nil =>
    intro seen uniqOp i _
    simp [intersectIndices, intersectWrites]
  | cons e rest ih =>
    intro seen uniqOp i hOp
    have hOp1 : ∀ x, mapGet (mapSet uniqOp e true) x = true ↔ x ∈ e :: seen := by
      intro x
      rw [mapGet_mapSet]
      by_cases hx : x = e <;> simp [hx, hOp]
    by_cases h : e ∈ a ∧ e ∉ seen
    · have hcond : (mapGet uniqA e && !mapGet uniqOp e) = true := by
        have h1 : mapGet uniqA e = true := (hA e).mpr h.1
        have h2 : mapGet uniqOp e = false := by
          cases hg : mapGet uniqOp e
          · rfl
          · exact absurd ((hOp e).mp hg) h.2
        simp [h1, h2]
      rw [intersectIndices, if_pos hcond, ih (e :: seen) _ (i + 1) hOp1]
      simp only [intersectWrites, if_pos h, List.length_cons, List.range'_succ]
    · have hcond : ¬ (mapGet uniqA e && !mapGet uniqOp e) = true := by
        intro hc
        simp only [Bool.and_eq_true, Bool.not_eq_true', hA] at hc
        refine h ⟨hc.1, fun hmem => ?_⟩
        have := (hOp e).mpr hmem
        rw [hc.2] at this
        exact Bool.noConfusion this
      rw [intersectIndices, if_neg hcond, ih (e :: seen) _ i hOp1]
      simp only [intersectWrites, if_neg h]

/-- The loop of `Intersect` writes at most as many strings as `a` has elements. -/
theorem intersectWrites_length_le_left (a operand : List String) :
    (intersectWrites a [] operand).length ≤ a.length := by
  apply List.Subperm.length_le
  apply List.subperm_of_subset (intersectWrites_nodup a operand [])
  intro x hx
  exact ((mem_intersectWrites a operand [] x).mp hx).1

/-- C31: every write `intersection[i]` of `Intersect` has `i < Max(len(a), len(operand))`,
the length of the buffer; `Intersect` returns without a panic, and the returned list has at
most `min(len(a), len(operand))` elements. -/
theorem Intersect_stays_in_buffer (a operand : List String) :
    (∀ i, i ∈ intersectIndices operand (markAll [] a) [] 0 →
        (i : Int) < Max (a.length : Int) (operand.length : Int)) ∧
      (∃ r, Intersect a operand = some r ∧
        (r.length : Int) ≤ Min (a.length : Int) (operand.length : Int)) := by
  have hA : ∀ x, mapGet (markAll [] a) x = true ↔ x ∈ a := by
    intro x
    rw [mapGet_markAll]
    simp [mapGet]
  have h1 := intersectWrites_length_le_left a operand
  have h2 := intersectWrites_length_le a operand []
  constructor
  · intro i hi
    rw [intersectIndices_eq_range a (markAll [] a) hA operand [] [] 0
      (by intro x; simp [mapGet])] at hi
    have hlt := (List.mem_range'_1.mp hi).2
    unfold Max
    split <;> omega
  · refine ⟨_, Intersect_eq_writes a operand, ?_⟩
    unfold Min
    split <;> omega

/-! ## The length of Seq -/

/-- The closed form of the length and the order of the values of an ascending `Seq` whose
last addition cannot overflow. -/
theorem Seq_ascending_length (first last step : Int) (hpos : 0 < step)
    (hfirst : IsInt first) (hov : last + step ≤ maxInt) :
    ∃ (n : Nat) (vs : List Int),
      (∀ fuel : Nat, n < fuel → Seq fuel first last [step] = Run.done vs) ∧
      (vs.length : Int) = seqLengthSpec first last step ∧
      vs.Pairwise (fun x y => x < y) ∧ vs.Nodup := by
  obtain ⟨n, hiff, hrun⟩ := Seq_ascending_in_range first last step hpos hfirst hov
  have hpw : ((List.range n).map (fun k : Nat => first + (k : Int) * step)).Pairwise
      (fun x y => x < y) := by
    rw [List.pairwise_map]
    refine (List.pairwise_lt_range n).imp ?_
    intro k1 k2 hk
    have hk' : (k1 : Int) < (k2 : Int) := by exact_mod_cast hk
    have := mul_lt_mul_of_pos_right hk' hpos
    linarith
  refine ⟨n, _, hrun, ?_, hpw, hpw.imp (fun h => ne_of_lt h)⟩
  rw [List.length_map, List.length_range]
  by_cases hle : first ≤ last
  · obtain ⟨ha, hb⟩ := up_count_bounds first last step hpos hle
    have hq0 : 0 ≤ (last - first) / step := Int.ediv_nonneg (by omega) hpos.le
    have hlow : ((last - first) / step).toNat < n :=
      (hiff _).mp (ha _ (Nat.lt_succ_self _))
    have hhigh : ¬ ((last - first) / step).toNat + 1 < n := by
      intro hlt
      have := (hiff _).mpr hlt
      omega
    have hn : n = ((last - first) / step).toNat + 1 := by omega
    have hspec : seqLengthSpec first last step = (last - first) / step + 1 := by
      simp only [seqLengthSpec, if_pos (And.intro (show step > 0 from hpos) hle)]
      rw [Int.tdiv_eq_ediv (by omega) hpos.le]
    rw [hspec, hn]
    push_cast
    rw [Int.toNat_of_nonneg hq0]
  · have hn : n = 0 := by
      by_contra hne
      have := (hiff 0).mpr (Nat.pos_of_ne_zero hne)
      simp at this
      omega
    have hspec : seqLengthSpec first last step = 0 := by
      have h1 : ¬ (step > 0 ∧ first ≤ last) := fun h => hle h.2
      have h2 : ¬ (step < 0 ∧ first ≥ last) := fun h => by omega
      simp only [seqLengthSpec, if_neg h1, if_neg h2]
    rw [hspec, hn]
    rfl

/-- The closed form of the length and the order of the values of a descending `Seq` whose
last addition cannot overflow. -/
theorem Seq_descending_length (first last step : Int) (hneg : step < 0)
    (hfirst : IsInt first) (hov : minInt ≤ last + step) :
    ∃ (n : Nat) (vs : List Int),
      (∀ fuel : Nat, n < fuel → Seq fuel first last [step] = Run.done vs) ∧
      (vs.length : Int) = seqLengthSpec first last step ∧
      vs.Pairwise (fun x y => x > y) ∧ vs.Nodup := by
  obtain ⟨n, hiff, hrun⟩ := Seq_descending_in_range first last step hneg hfirst hov
  have hpw : ((List.range n).map (fun k : Nat => first + (k : Int) * step)).Pairwise
      (fun x y => x > y) := by
    rw [List.pairwise_map]
    refine (List.pairwise_lt_range n).imp ?_
    intro k1 k2 hk
    have hk' : (k1 : Int) < (k2 : Int) := by exact_mod_cast hk
    have := mul_lt_mul_of_neg_right hk' hneg
    show first + (k1 : Int) * step > first + (k2 : Int) * step
    linarith
  refine ⟨n, _, hrun, ?_, hpw, hpw.imp (fun h => ne_of_gt h)⟩
  rw [List.length_map, List.length_range]
  have hnpos : ¬ (step > 0 ∧ first ≤ last) := fun h => by omega
  by_cases hle : last ≤ first
  · obtain ⟨ha, hb⟩ := down_count_bounds first last step hneg hle
    have hq0 : 0 ≤ (first - last) / (-step) := Int.ediv_nonneg (by omega) (by omega)
    have hlow : ((first - last) / (-step)).toNat < n :=
      (hiff _).mp (ha _ (Nat.lt_succ_self _))
    have hhigh : ¬ ((first - last) / (-step)).toNat + 1 < n := by
      intro hlt
      have := (hiff _).mpr hlt
      omega
    have hn : n = ((first - last) / (-step)).toNat + 1 := by omega
    have hspec : seqLengthSpec first last step = (first - last) / (-step) + 1 := by
      simp only [seqLengthSpec, if_neg hnpos,
        if_pos (And.intro hneg (show first ≥ last from hle))]
      rw [Int.tdiv_eq_ediv (by omega) (by omega)]
    rw [hspec, hn]
    push_cast
    rw [Int.toNat_of_nonneg hq0]
  · have hn : n = 0 := by
      by_contra hne
      have := (hiff 0).mpr (Nat.pos_of_ne_zero hne)
      simp at this
      omega
    have hspec : seqLengthSpec first last step = 0 := by
      have h2 : ¬ (step < 0 ∧ first ≥ last) := fun h => hle h.2
      simp only [seqLengthSpec, if_neg hnpos, if_neg h2]
    rw [hspec, hn]
    rfl

/-- C32: the length of `Seq(MaxInt64 - 2, MaxInt64, 2)` is claimed to be
`(last - first) / step + 1 = 2`, the values being `MaxInt64 - 2` and `MaxInt64`.  After
these two values `current += j` wraps around to a negative int, the condition
`current <= last` stays true, and the call returns no list, whatever the fuel. -/
theorem Seq_length_undefined_at_maxInt (fuel : Nat) :
    seqLengthSpec (maxInt - 2) maxInt 2 = 2 ∧
      Seq fuel (maxInt - 2) maxInt [2] = Run.outOfFuel := by
  refine ⟨by decide, ?_⟩
  have h := seqUp_maxInt 2 fuel (maxInt - 2) [] (by decide)
  simp [Seq, seqBody, h]

/-! ## Evaluation on further cases of functions_test.go -/

example : Head 2 ["dog", "cat", "horse"] = some ["dog", "cat"] := by decide
example : Head 30 ["dog", "cat", "horse"] = some ["dog", "cat", "horse"] := by decide
example : Tail 2 ["dog", "cat", "horse"] = some ["cat", "horse"] := by decide
example : Tail 30 ["dog", "cat", "horse"] = some ["dog", "cat", "horse"] := by decide
example : Slice 1 3 ⟨["cat", "dog", "mouse"], []⟩ = some ⟨["dog", "mouse"], []⟩ := by decide
example : Shuffle (fun n => (List.range n).reverse) ["dog", "cat", "horse"]
    = some ["horse", "cat", "dog"] := by decide
example : Base64Encode (goBytes "test text") = goBytes "dGVzdCB0ZXh0" := by decide
example : Base64Decode (goBytes "dGVzdCB0ZXh0") = Except.ok (goBytes "test text") := by rfl
example : Base64Decode (goBytes "not-valid-base64!!") = Except.error "illegal base64 data" := by
  rfl
example : Base64Encode (goBytes "a") = goBytes "YQ==" := by decide
example : Base64Encode (goBytes "ab") = goBytes "YWI=" := by decide
example : Base64Decode (goBytes "YW\nI=\r\n") = Except.ok (goBytes "ab") := by rfl

example : Abs (-10) = 10 := by decide
example : Add 3 42 = 45 := by decide
example : Add 1 maxInt = minInt := by decide
example : Subtract 3 maxInt = maxInt - 3 := by decide
example : Subtract 10 42 = 32 := by decide
example : Multiply 10 42 = 420 := by decide
example : Divide 2 42 = Run.done 21 := by decide
example : Modulo 10 42 = Run.done 2 := by decide
example : Divide 2 (-7) = Run.done (-3) := by decide
example : Modulo 2 (-7) = Run.done (-1) := by decide
example : Split (goBytes ",") (goBytes "cat,dog,horse")
    = [goBytes "cat", goBytes "dog", goBytes "horse"] := by decide
example : Split (goBytes "ab") (goBytes "xabab") = [goBytes "x", [], []] := by decide
example : Split (goBytes "aa") (goBytes "aaa") = [[], goBytes "a"] := by decide
example : Join (goBytes ",") [goBytes "cat", goBytes "dog", goBytes "horse"]
    = goBytes "cat,dog,horse" := by decide
example : Lines (goBytes "a\nb\nc\n") = ([goBytes "a", goBytes "b", goBytes "c"], none) := by
  decide
example : Lines (goBytes "empty\n\nlines") = ([goBytes "empty", [], goBytes "lines"], none) := by
  decide
example : Lines (goBytes "\nleading") = ([[], goBytes "leading"], none) := by decide
example : Lines (goBytes "windows\r\nlines") = ([goBytes "windows", goBytes "lines"], none) := by
  decide
example : Lines (goBytes "single line") = ([goBytes "single line"], none) := by decide
example : linesSpec (goBytes "windows\r\nlines\n")
    = [goBytes "windows", goBytes "lines"] := by decide
example : Repeat 2 (goBytes "duck") = Run.done (goBytes "duckduck") := by decide
example : Repeat 0 (goBytes "duck") = Run.done [] := by decide
example : firstOccurrences ["dog", "dog", "horse", "dog"] = ["dog", "horse"] := by decide
example : intersectIndices ["dog", "dog", "cat", "horse"] (markAll [] ["horse", "dog"]) [] 0
    = [0, 1] := by decide
example : seqLengthSpec 3 13 3 = 4 := by decide
example : seqLengthSpec 4 0 (-1) = 5 := by decide
example : seqLengthSpec 4 0 1 = 0 := by decide

end Haven
